import Mathlib

/-!
Verification of the distribution-grid-emulation topology generator
(`topology-generator/generator.py`).

The Python program builds a mutable object graph of nodes, channels and
interfaces, floods per-channel reachability records with a breadth-first
traversal (`Channel.distribute_route`), resolves per-node forwarding tables
(`Node.get_routes`), aggregates sibling routes (`Node.get_simplified_routes`)
and serializes them (`Node.dump`).  The embedding below represents the object
graph as index-based state (`Topo`), with every operation translated from the
source: Python object identity becomes a list index, mutation becomes explicit
state passing, and fallible address indexing (`IPv4Network.__getitem__`)
becomes `Option`.
-/

/-- `ipaddress.IPv4Network`: canonical (base address, prefix length) pair.
Addresses are plain naturals; Python `int` does not wrap. -/
structure IPv4Net where
  base : Nat
  plen : Nat
deriving DecidableEq, Repr, Inhabited

/-- `network.num_addresses` = 2 ^ (32 - prefixlen). -/
def netSize (n : IPv4Net) : Nat := 2 ^ (32 - n.plen)

/-- Range containment of one network inside another (as address ranges). -/
def subsetNet (a b : IPv4Net) : Prop :=
  b.base ≤ a.base ∧ a.base + netSize a ≤ b.base + netSize b

instance (a b : IPv4Net) : Decidable (subsetNet a b) := by
  unfold subsetNet; infer_instance

/-- Two networks overlap when their address ranges intersect. -/
def overlapNet (a b : IPv4Net) : Prop :=
  a.base < b.base + netSize b ∧ b.base < a.base + netSize a

instance (a b : IPv4Net) : Decidable (overlapNet a b) := by
  unfold overlapNet; infer_instance

/-- A network is aligned when its base address is a multiple of its size, as
`IPv4Network(strict=True)` guarantees for every network the program builds. -/
def alignedNet (n : IPv4Net) : Prop := n.base % netSize n = 0

instance (n : IPv4Net) : Decidable (alignedNet n) := by
  unfold alignedNet; infer_instance

/-- `IPv4Network.supernet()`: one-bit-shorter enclosing network; CPython
returns the network itself when the prefix length is already 0. -/
def supernet (n : IPv4Net) : IPv4Net :=
  if n.plen = 0 then n
  else ⟨n.base - n.base % 2 ^ (32 - (n.plen - 1)), n.plen - 1⟩

/-- `IPv4Network.subnets(new_prefix=p)`: the ascending list of sub-blocks of
prefix length `p` tiling the network. -/
def subnets (n : IPv4Net) (p : Nat) : List IPv4Net :=
  (List.range (2 ^ (p - n.plen))).map (fun i => ⟨n.base + i * 2 ^ (32 - p), p⟩)

/-- Python's ordering on `IPv4Network` used by `list.sort(key=...)`:
lexicographic on (network address, netmask), and the netmask as an integer is
strictly monotone in the prefix length. -/
def netKeyLe (a b : IPv4Net) : Prop :=
  a.base < b.base ∨ (a.base = b.base ∧ a.plen ≤ b.plen)

instance (a b : IPv4Net) : Decidable (netKeyLe a b) := by
  unfold netKeyLe; infer_instance

/-- Strict form of the sort key order. -/
def netKeyLt (a b : IPv4Net) : Prop :=
  a.base < b.base ∨ (a.base = b.base ∧ a.plen < b.plen)

instance (a b : IPv4Net) : Decidable (netKeyLt a b) := by
  unfold netKeyLt; infer_instance

/-- An `Interface` object: owning node index, channel index, per-node
identifier string, and per-channel ordinal (`Channel.add_interface` result). -/
structure Iface where
  node : Nat
  channel : Nat
  ident : String
  offset : Nat
deriving DecidableEq, Repr, Inhabited

/-- A `Node` object: device/component strings, `include_routes` flag, and the
ordered list of owned interface indices (`Node.interfaces`). -/
structure NodeData where
  device : String
  component : String
  include_routes : Bool
  interfaces : List Nat
deriving DecidableEq, Repr, Inhabited

/-- A `Channel` object: identifier, allocated network, delay, ordered member
interface indices, and the accumulated route records
`(origin channel, gateway interface, distance)`. -/
structure ChannelData where
  cid : String
  network : IPv4Net
  delay : Nat
  interfaces : List Nat
  routes : List (Nat × Nat × Nat)
deriving DecidableEq, Repr, Inhabited

/-- The whole object graph: nodes, interfaces and channels addressed by list
index (Python object identity). -/
structure Topo where
  nodes : List NodeData
  ifaces : List Iface
  channels : List ChannelData
deriving DecidableEq, Repr, Inhabited

def nodeD (t : Topo) (n : Nat) : NodeData := t.nodes.getD n default

def chanD (t : Topo) (c : Nat) : ChannelData := t.channels.getD c default

def ifaceD (t : Topo) (i : Nat) : Iface := t.ifaces.getD i default

/-- Graph-construction steps: `Node.__init__`, `Channel.__init__`, and
`Interface.__init__` (which registers with both owner node and channel). -/
inductive Op where
  | addNode (device component : String) (include_routes : Bool)
  | addChannel (cid : String) (network : IPv4Net) (delay : Nat)
  | attach (n c : Nat) (givenId : Option String)
deriving DecidableEq, Repr

/-- One construction step.  `attach n c given?` is `Interface(node, channel,
id=given?)`: `Node.add_interface` appends the new interface to the node and
returns `i<count>` (used only when no explicit id was given), and
`Channel.add_interface` appends it to the channel, returning the member count
as the interface's offset. -/
def apply_op (t : Topo) (op : Op) : Topo :=
  match op with
  | .addNode d comp inc => { t with nodes := t.nodes ++ [⟨d, comp, inc, []⟩] }
  | .addChannel cid net delay =>
      { t with channels := t.channels ++ [⟨cid, net, delay, [], []⟩] }
  | .attach n c given =>
      if n < t.nodes.length ∧ c < t.channels.length then
        let idx := t.ifaces.length
        let nd := nodeD t n
        let ch := chanD t c
        let autoId := "i" ++ Nat.repr nd.interfaces.length
        let theId := given.getD autoId
        { t with
          nodes := t.nodes.set n { nd with interfaces := nd.interfaces ++ [idx] },
          channels := t.channels.set c { ch with interfaces := ch.interfaces ++ [idx] },
          ifaces := t.ifaces ++ [⟨n, c, theId, ch.interfaces.length⟩] }
      else t

def apply_ops (t : Topo) (ops : List Op) : Topo := ops.foldl apply_op t

def emptyTopo : Topo := ⟨[], [], []⟩

/-- `Interface.get_ip`: address = `channel.network[offset + 1]` at the
network's prefix length.  `IPv4Network.__getitem__` raises `IndexError` when
the index reaches `num_addresses`, hence the `Option`. -/
def get_ip (t : Topo) (i : Nat) : Option (Nat × Nat) :=
  let f := ifaceD t i
  let net := (chanD t f.channel).network
  if f.offset + 1 < netSize net then some (net.base + f.offset + 1, net.plen)
  else none

/-- The per-node identifier strings of a node's interfaces, in attachment
order. -/
def node_ids (t : Topo) (n : Nat) : List String :=
  (nodeD t n).interfaces.map (fun i => (ifaceD t i).ident)

/-! ### `Channel.distribute_route`: breadth-first flood over the
channel-adjacency graph.  The traversal state carries the `known` set (as the
insertion-ordered list Python's set-membership test induces here), the FIFO
queue of `(channel, distance)` pairs, and the record appends performed so far
as `(target channel, origin, gateway interface, distance)` tuples. -/

structure BfsSt where
  known : List Nat
  queue : List (Nat × Nat)
  recs : List (Nat × Nat × Nat × Nat)
deriving DecidableEq, Repr

/-- Inner loop body: one `out_interface` of the bridging node.  A channel not
yet known is marked known, enqueued at distance `cdist + 1`, and receives the
route record `(origin, out_interface, cdist + 1)`. -/
def step_out (t : Topo) (origin cdist : Nat) (st : BfsSt) (outIf : Nat) : BfsSt :=
  let nc := (ifaceD t outIf).channel
  if nc ∈ st.known then st
  else ⟨st.known ++ [nc], st.queue ++ [(nc, cdist + 1)],
        st.recs ++ [(nc, origin, outIf, cdist + 1)]⟩

/-- One `in_interface` of the current channel: scan every interface of its
owning node. -/
def step_in (t : Topo) (origin cdist : Nat) (st : BfsSt) (inIf : Nat) : BfsSt :=
  (nodeD t (ifaceD t inIf).node).interfaces.foldl (step_out t origin cdist) st

/-- Process one dequeued channel: scan all of its member interfaces. -/
def step_channel (t : Topo) (origin : Nat) (st : BfsSt) (c cdist : Nat) : BfsSt :=
  (chanD t c).interfaces.foldl (step_in t origin cdist) st

/-- The `while queue:` loop.  Each channel is enqueued at most once (guarded by
`known`), so `t.channels.length` iterations of fuel suffice for any
well-formed topology. -/
def bfs_loop (t : Topo) (origin : Nat) : Nat → BfsSt → List (Nat × Nat × Nat × Nat)
  | 0, st => st.recs
  | _ + 1, ⟨_, [], recs⟩ => recs
  | fuel + 1, ⟨known, (c, d) :: q, recs⟩ =>
    bfs_loop t origin fuel (step_channel t origin ⟨known, q, recs⟩ c d)

/-- `Channel.distribute_route` as a record computation: the list of appends
`(target channel, origin, gateway, distance)` the traversal performs, in
order.  Initially `known = {origin}` and `queue = [(origin, 0)]`. -/
def bfs_run (t : Topo) (origin : Nat) : List (Nat × Nat × Nat × Nat) :=
  bfs_loop t origin t.channels.length ⟨[origin], [(origin, 0)], []⟩

/-- Apply one `next_channel.routes.append((self, out_interface, dist))`. -/
def append_rec (t : Topo) (tr : Nat × Nat × Nat × Nat) : Topo :=
  let ch := chanD t tr.1
  { t with channels := t.channels.set tr.1 { ch with routes := ch.routes ++ [tr.2] } }

/-- `Channel.distribute_route` in full: run the traversal and perform its
appends. -/
def distribute_route (t : Topo) (origin : Nat) : Topo :=
  (bfs_run t origin).foldl append_rec t

/-- `Topology.distribute_routes`: run the distributor once per channel (the
enumeration order of `get_channels()` is implementation-defined in the source;
the model fixes index order). -/
def distribute_routes (t : Topo) : Topo :=
  (List.range t.channels.length).foldl distribute_route t

/-! ### `Node.get_routes`: per-destination minimum-distance resolution.
The Python `routes` dict keyed by channel objects is an insertion-ordered
association list; an existing key's entry is replaced in place only when the
new distance is strictly smaller (`routes[channel][2] > dist`). -/

def dictInsertMin (acc : List (Nat × Nat × Nat × Nat)) (k : Nat)
    (v : Nat × Nat × Nat) : List (Nat × Nat × Nat × Nat) :=
  match acc with
  | [] => [(k, v)]
  | (k', v') :: rest =>
    if k' = k then (if v.2.2 < v'.2.2 then (k, v) :: rest else (k', v') :: rest)
    else (k', v') :: dictInsertMin rest k v

/-- `Node.get_routes`: for each owned interface, fold that interface's
channel's records into the table as `(dest, (interface, gateway, dist))`. -/
def get_routes (t : Topo) (n : Nat) : List (Nat × Nat × Nat × Nat) :=
  (nodeD t n).interfaces.foldl (fun acc i =>
    ((chanD t (ifaceD t i).channel).routes).foldl
      (fun acc r => dictInsertMin acc r.1 (i, r.2.1, r.2.2)) acc) []

/-! ### `Node.get_simplified_routes`: greedy supernet aggregation. -/

/-- The `while` loop: repeatedly merge the two most recent entries when their
immediate supernets coincide and their gateway interfaces are equal, keeping
the later entry's value.  The stack is kept top-first (the reverse of the
Python `result` list).  Each merge shortens the stack, so a fuel of the
stack's length makes the recursion structural without truncating it. -/
def merge_tops_fuel : Nat → List (IPv4Net × Nat × Nat × Nat) → List (IPv4Net × Nat × Nat × Nat)
  | 0, l => l
  | f + 1, a :: b :: rest =>
    if supernet a.1 = supernet b.1 ∧ a.2.2.1 = b.2.2.1 then
      merge_tops_fuel f ((supernet a.1, a.2) :: rest)
    else a :: b :: rest
  | _ + 1, l => l

def merge_tops (l : List (IPv4Net × Nat × Nat × Nat)) : List (IPv4Net × Nat × Nat × Nat) :=
  merge_tops_fuel l.length l

def agg_step (st : List (IPv4Net × Nat × Nat × Nat)) (e : IPv4Net × Nat × Nat × Nat) :
    List (IPv4Net × Nat × Nat × Nat) :=
  merge_tops (e :: st)

/-- The aggregation walk over an already sorted entry list. -/
def agg_fold (l : List (IPv4Net × Nat × Nat × Nat)) : List (IPv4Net × Nat × Nat × Nat) :=
  (l.foldl agg_step []).reverse

/-- Python `dict` built from a pair list: first-occurrence position, last
value wins. -/
def dict_put (acc : List (IPv4Net × Nat × Nat × Nat)) (k : IPv4Net)
    (v : Nat × Nat × Nat) : List (IPv4Net × Nat × Nat × Nat) :=
  match acc with
  | [] => [(k, v)]
  | (k', v') :: rest => if k' = k then (k, v) :: rest else (k', v') :: dict_put rest k v

def dict_of_pairs (l : List (IPv4Net × Nat × Nat × Nat)) : List (IPv4Net × Nat × Nat × Nat) :=
  l.foldl (fun acc e => dict_put acc e.1 e.2) []

def sortKeyLe (a b : IPv4Net × Nat × Nat × Nat) : Prop := netKeyLe a.1 b.1

instance : DecidableRel sortKeyLe := by
  intro a b; unfold sortKeyLe; infer_instance

/-- `Node.get_simplified_routes`: map destinations to their networks, sort by
network (Python `list.sort` is a stable sort with respect to the key order,
modelled by stable insertion sort), aggregate, and rebuild the dict. -/
def get_simplified_routes (t : Topo) (n : Nat) : List (IPv4Net × Nat × Nat × Nat) :=
  dict_of_pairs (agg_fold (List.insertionSort sortKeyLe
    ((get_routes t n).map (fun e => ((chanD t e.1).network, e.2)))))

/-- The route entries `Node.dump` keeps: simplified entries whose resolved
outgoing interface differs from the gateway interface. -/
def emitted_routes (t : Topo) (n : Nat) : List (IPv4Net × Nat × Nat × Nat) :=
  (get_simplified_routes t n).filter (fun e => decide (¬ e.2.1 = e.2.2.1))

/-- The `routes` field of `Node.dump`: `(network, gateway address, metric)`
per emitted entry; `none` when some gateway's `get_ip` raises. -/
def dump_routes (t : Topo) (n : Nat) : Option (List (IPv4Net × Nat × Nat)) :=
  (emitted_routes t n).mapM (fun e => (get_ip t e.2.2.1).map (fun a => (e.1, a.1, e.2.2.2)))

/-! ### `NetworkPool` -/

/-- `NetworkPool.gen_network`: pop the front of the free list; `IndexError`
on an empty pool becomes `none`. -/
def gen_network : List IPv4Net → Option (IPv4Net × List IPv4Net)
  | [] => none
  | x :: xs => some (x, xs)

/-- The result of the `(k+1)`-st `gen_network()` call on a pool, threading the
popped state through the preceding `k` calls. -/
def gen_iter : List IPv4Net → Nat → Option IPv4Net
  | pool, 0 => (gen_network pool).map Prod.fst
  | pool, k + 1 =>
    match gen_network pool with
    | none => none
    | some (_, rest) => gen_iter rest k

/-- All channels' route stores are empty: the state of any topology before
`distribute_routes()` has executed. -/
def routes_empty (t : Topo) : Prop := ∀ ch ∈ t.channels, ch.routes = []

instance (t : Topo) : Decidable (routes_empty t) := by
  unfold routes_empty; infer_instance

/-! ### Concrete scenarios -/

/-- Round-trip scenario of the spec: parent block `10.0.0.0/24`
(= 167772160), sub-prefix 30; nodes X = 0, Y = 1, Z = 2; channel 0 joins X-Y
over the first pool block `10.0.0.0/30`, channel 1 joins Y-Z over the second
block `10.0.0.4/30`, interfaces attached in `Channel.auto` order. -/
def roundTripOps : List Op :=
  [ .addNode ("router") ("simple-router") true
  , .addNode ("router") ("simple-router") true
  , .addNode ("router") ("simple-router") true
  , .addChannel ("c_x_y") ⟨167772160, 30⟩ 0
  , .addChannel ("c_y_z") ⟨167772164, 30⟩ 0
  , .attach 0 0 none, .attach 1 0 none
  , .attach 1 1 none, .attach 2 1 none ]

def roundTripTopo : Topo := apply_ops emptyTopo roundTripOps

def roundTripDist : Topo := distribute_routes roundTripTopo

/-- Chain of four channels A = 0, B = 1, C = 2, D = 3 over nodes 0-4, each
consecutive channel pair joined through exactly one shared node. -/
def chainOps : List Op :=
  [ .addNode ("router") ("simple-router") true
  , .addNode ("router") ("simple-router") true
  , .addNode ("router") ("simple-router") true
  , .addNode ("router") ("simple-router") true
  , .addNode ("router") ("simple-router") true
  , .addChannel ("A") ⟨167772160, 30⟩ 0
  , .addChannel ("B") ⟨167772164, 30⟩ 0
  , .addChannel ("C") ⟨167772168, 30⟩ 0
  , .addChannel ("D") ⟨167772172, 30⟩ 0
  , .attach 0 0 none, .attach 1 0 none
  , .attach 1 1 none, .attach 2 1 none
  , .attach 2 2 none, .attach 3 2 none
  , .attach 3 3 none, .attach 4 3 none ]

def chainDist : Topo := distribute_routes (apply_ops emptyTopo chainOps)

/-- C4: for the chain A-B-C-D of four channels, each consecutive pair joined
through one shared node, the distributor records B at distance 1 from A, C at
distance 2, D at distance 3, and symmetrically C at distance 1 from D, B at
distance 2, A at distance 3. -/
theorem chain_bfs_distances :
    ((0, 2, 1) ∈ (chanD chainDist 1).routes ∧
     (0, 4, 2) ∈ (chanD chainDist 2).routes ∧
     (0, 6, 3) ∈ (chanD chainDist 3).routes) ∧
    ((3, 5, 1) ∈ (chanD chainDist 2).routes ∧
     (3, 3, 2) ∈ (chanD chainDist 1).routes ∧
     (3, 1, 3) ∈ (chanD chainDist 0).routes) := by decide

/-- C1 counterexample: in the round-trip scenario the code emits no route
entries at all for the middle node Y (both of Y's networks resolve through
Y's own interfaces and are filtered as local), and X's only entry carries
metric 1 with gateway 10.0.0.2 (Y's address toward X), not metric 2. -/
theorem round_trip_code_behavior :
    dump_routes roundTripDist 1 = some [] ∧
    dump_routes roundTripDist 0 = some [(⟨167772164, 30⟩, 167772162, 1)] := by decide

/-- C1 (amended): in the round-trip scenario the middle node Y emits no route
entries (both networks are directly attached and filtered as local), X emits
exactly one entry, for Z's network, with metric 1 and gateway 10.0.0.2 (the
address of Y's interface on the X-Y channel), and symmetrically Z emits one
entry for X's network with metric 1 and gateway 10.0.0.5. -/
theorem round_trip_amended :
    dump_routes roundTripDist 1 = some [] ∧
    dump_routes roundTripDist 0 = some [(⟨167772164, 30⟩, 167772162, 1)] ∧
    dump_routes roundTripDist 2 = some [(⟨167772160, 30⟩, 167772165, 1)] := by decide

/-- Two nodes 0 and 1 joined by two parallel channels 0 and 1
(`Channel.auto` twice on the same node pair, as `add_backbone` with length 1
produces). -/
def parallelOps : List Op :=
  [ .addNode ("router") ("simple-router") true
  , .addNode ("router") ("simple-router") true
  , .addChannel ("X") ⟨167772160, 30⟩ 0
  , .addChannel ("W") ⟨167772164, 30⟩ 0
  , .attach 0 0 none, .attach 1 0 none
  , .attach 0 1 none, .attach 1 1 none ]

def parallelDist : Topo := distribute_routes (apply_ops emptyTopo parallelOps)

/-- C2 counterexample: with two parallel channels between nodes 0 and 1,
node 1 is directly attached to channel 0 (through its interface 1), yet its
dump emits a route entry whose destination is channel 0's own network
10.0.0.0/30 (reached through the parallel channel, gateway 10.0.0.5). -/
theorem local_exclusion_counterexample :
    (1 : Nat) ∈ (nodeD parallelDist 1).interfaces ∧
    (ifaceD parallelDist 1).node = 1 ∧
    (ifaceD parallelDist 1).channel = 0 ∧
    (chanD parallelDist 0).network = ⟨167772160, 30⟩ ∧
    (⟨167772160, 30⟩, 3, 2, 1) ∈ emitted_routes parallelDist 1 ∧
    dump_routes parallelDist 1 =
      some [(⟨167772160, 30⟩, 167772165, 1), (⟨167772164, 30⟩, 167772161, 1)] := by decide

/-- Hub: node 0 reaches, through one gateway channel 0 (net `10.0.1.0/30`),
node 1 which sits on four channels 1-4 whose networks are the four /30 blocks
tiling `10.0.0.0/28`. -/
def hubOps : List Op :=
  [ .addNode ("router") ("simple-router") true
  , .addNode ("router") ("simple-router") true
  , .addChannel ("G") ⟨167772416, 30⟩ 0
  , .addChannel ("C1") ⟨167772160, 30⟩ 0
  , .addChannel ("C2") ⟨167772164, 30⟩ 0
  , .addChannel ("C3") ⟨167772168, 30⟩ 0
  , .addChannel ("C4") ⟨167772172, 30⟩ 0
  , .attach 0 0 none, .attach 1 0 none
  , .attach 1 1 none, .attach 1 2 none, .attach 1 3 none, .attach 1 4 none ]

def hubDist : Topo := distribute_routes (apply_ops emptyTopo hubOps)

/-- The hub extended by a fifth channel carrying the sibling block
`10.0.0.16/28`, reached through the same gateway. -/
def hubSiblingOps : List Op :=
  hubOps ++ [ .addChannel ("C5") ⟨167772176, 28⟩ 0, .attach 1 5 none ]

def hubSiblingDist : Topo := distribute_routes (apply_ops emptyTopo hubSiblingOps)

/-- C3 counterexample: node 0's resolved table holds the four /30 networks
10.0.0.0/30 ... 10.0.0.12/30 tiling 10.0.0.0/28, all with gateway interface 1;
yet because the table also holds the sibling block 10.0.0.16/28 with the same
gateway, the aggregation pass cascades past the /28 and emits a single /27
entry: no emitted entry is keyed by the /28. -/
theorem aggregation_sibling_counterexample :
    get_routes hubSiblingDist 0 =
      [(1, 0, 1, 1), (2, 0, 1, 1), (3, 0, 1, 1), (4, 0, 1, 1), (5, 0, 1, 1)] ∧
    (chanD hubSiblingDist 1).network = ⟨167772160, 30⟩ ∧
    (chanD hubSiblingDist 2).network = ⟨167772164, 30⟩ ∧
    (chanD hubSiblingDist 3).network = ⟨167772168, 30⟩ ∧
    (chanD hubSiblingDist 4).network = ⟨167772172, 30⟩ ∧
    get_simplified_routes hubSiblingDist 0 = [(⟨167772160, 27⟩, 0, 1, 1)] := by decide

/-- A node that receives one auto-generated interface identifier `i0` and then
an explicit identifier `i0` for its second interface. -/
def dupIdTopo : Topo := apply_ops emptyTopo
  [ .addNode ("router") ("simple-router") true
  , .addChannel ("X") ⟨167772160, 30⟩ 0
  , .addChannel ("W") ⟨167772164, 30⟩ 0
  , .attach 0 0 none, .attach 0 1 (some ("i0")) ]

/-- C9 counterexample: an explicit id equal to a previously auto-generated id
yields two interfaces of one node with the same identifier. -/
theorem interface_id_collision :
    node_ids dupIdTopo 0 = ["i0", "i0"] ∧ ¬ (node_ids dupIdTopo 0).Nodup := by decide

/-- C8 counterexample: before `distribute_routes()` runs, querying routes and
dumping succeed and return empty route data; no error is raised. -/
theorem pre_distribution_concrete :
    get_routes roundTripTopo 1 = [] ∧ dump_routes roundTripTopo 1 = some [] := by decide

/-! ### Decimal representation: injectivity of the auto-generated `i<n>`
identifiers needs injectivity of `Nat.repr`. -/

/-- The decimal digit-character list of a natural number, most significant
digit first (the value `Nat.toDigitsCore` computes). -/
def decDigits (n : Nat) : List Char :=
  if n < 10 then [Nat.digitChar n]
  else decDigits (n / 10) ++ [Nat.digitChar (n % 10)]
decreasing_by exact Nat.div_lt_self (by omega) (by omega)

theorem decDigits_lt (n : Nat) (h : n < 10) : decDigits n = [Nat.digitChar n] := by
  rw [decDigits.eq_def, if_pos h]

theorem decDigits_ge (n : Nat) (h : 10 ≤ n) :
    decDigits n = decDigits (n / 10) ++ [Nat.digitChar (n % 10)] := by
  rw [decDigits.eq_def]
  rw [if_neg (by omega)]

theorem decDigits_ne_nil (n : Nat) : decDigits n ≠ [] := by
  by_cases h : n < 10
  · rw [decDigits_lt n h]; simp
  · rw [decDigits_ge n (by omega)]; simp

theorem toDigitsCore_eq_decDigits :
    ∀ fuel n ds, n < fuel → Nat.toDigitsCore 10 fuel n ds = decDigits n ++ ds := by
  intro fuel
  induction fuel with
  | zero => intro n ds h; omega
  | succ f ih =>
    intro n ds h
    show (if n / 10 = 0 then Nat.digitChar (n % 10) :: ds
          else Nat.toDigitsCore 10 f (n / 10) (Nat.digitChar (n % 10) :: ds)) = _
    by_cases h10 : n / 10 = 0
    · have hn : n < 10 := by omega
      rw [if_pos h10, decDigits_lt n hn, Nat.mod_eq_of_lt hn]
      simp
    · have hn : 10 ≤ n := by omega
      have hlt : n / 10 < f := by
        have hd : n / 10 < n := Nat.div_lt_self (by omega) (by omega)
        omega
      rw [if_neg h10, ih (n / 10) (Nat.digitChar (n % 10) :: ds) hlt, decDigits_ge n hn]
      simp

theorem repr_eq_decDigits (n : Nat) : Nat.repr n = (decDigits n).asString := by
  show (Nat.toDigits 10 n).asString = _
  unfold Nat.toDigits
  rw [toDigitsCore_eq_decDigits (n + 1) n [] (Nat.lt_succ_self n)]
  simp

theorem digitChar_inj_lt : ∀ m < 10, ∀ n < 10, Nat.digitChar m = Nat.digitChar n → m = n := by
  decide

theorem decDigits_inj : ∀ m n : Nat, decDigits m = decDigits n → m = n := by
  intro m
  induction m using Nat.strong_induction_on with
  | _ m ih =>
    intro n h
    by_cases hm : m < 10
    · by_cases hn : n < 10
      · rw [decDigits_lt m hm, decDigits_lt n hn] at h
        exact digitChar_inj_lt m hm n hn (by simpa using h)
      · rw [decDigits_lt m hm, decDigits_ge n (by omega)] at h
        have hlen := congrArg List.length h
        simp at hlen
        have hne := decDigits_ne_nil (n / 10)
        cases hd : decDigits (n / 10) with
        | nil => exact absurd hd hne
        | cons x xs => rw [hd] at hlen; simp at hlen
    · by_cases hn : n < 10
      · rw [decDigits_ge m (by omega), decDigits_lt n hn] at h
        have hlen := congrArg List.length h
        simp at hlen
        have hne := decDigits_ne_nil (m / 10)
        cases hd : decDigits (m / 10) with
        | nil => exact absurd hd hne
        | cons x xs => rw [hd] at hlen; simp at hlen
      · rw [decDigits_ge m (by omega), decDigits_ge n (by omega)] at h
        have hlen : ([Nat.digitChar (m % 10)] : List Char).length
            = ([Nat.digitChar (n % 10)] : List Char).length := by simp
        obtain ⟨h1, h2⟩ := List.append_inj' h hlen
        have hdiv : m / 10 = n / 10 :=
          ih (m / 10) (Nat.div_lt_self (by omega) (by omega)) (n / 10) h1
        have hmod : m % 10 = n % 10 :=
          digitChar_inj_lt (m % 10) (Nat.mod_lt m (by omega)) (n % 10)
            (Nat.mod_lt n (by omega)) (by simpa using h2)
        omega

theorem nat_repr_inj {m n : Nat} (h : Nat.repr m = Nat.repr n) : m = n := by
  rw [repr_eq_decDigits, repr_eq_decDigits] at h
  apply decDigits_inj
  have := congrArg String.data h
  simpa [List.asString] using this

theorem auto_id_inj {m n : Nat} (h : "i" ++ Nat.repr m = "i" ++ Nat.repr n) : m = n := by
  apply nat_repr_inj
  have hd := congrArg String.data h
  simp only [String.data_append] at hd
  have hdata : (Nat.repr m).data = (Nat.repr n).data := by simpa using hd
  cases hm : Nat.repr m with
  | mk dm =>
    cases hn : Nat.repr n with
    | mk dn =>
      rw [hm, hn] at hdata
      exact congrArg String.mk (by simpa using hdata)

/-! ### List access helpers -/

theorem getD_set_self {α : Type} {l : List α} {i : Nat} (h : i < l.length) (a d : α) :
    (l.set i a).getD i d = a := by
  rw [List.getD_eq_getElem?_getD, List.getElem?_set_self (by simpa using h)]
  rfl

theorem getD_set_ne {α : Type} {l : List α} {i j : Nat} (h : i ≠ j) (a d : α) :
    (l.set i a).getD j d = l.getD j d := by
  rw [List.getD_eq_getElem?_getD, List.getElem?_set_ne h, ← List.getD_eq_getElem?_getD]

theorem getD_append_last {α : Type} (l : List α) (a d : α) :
    (l ++ [a]).getD l.length d = a := by
  rw [List.getD_append_right l [a] d l.length (Nat.le_refl _)]
  simp

theorem foldl_preserve {α β : Type} (P : α → Prop) (f : α → β → α) :
    ∀ (l : List β), (∀ st x, x ∈ l → P st → P (f st x)) → ∀ st, P st → P (List.foldl f st l)
  | [], _, _, hst => hst
  | x :: l, h, st, hst =>
    foldl_preserve P f l (fun st' y hy => h st' y (List.mem_cons_of_mem x hy))
      (f st x) (h st x (List.mem_cons_self x l) hst)

/-! ### Accessor lemmas for the construction steps -/

theorem apply_op_addNode (t : Topo) (d comp : String) (inc : Bool) :
    apply_op t (.addNode d comp inc) = { t with nodes := t.nodes ++ [⟨d, comp, inc, []⟩] } := rfl

theorem apply_op_addChannel (t : Topo) (cid : String) (net : IPv4Net) (delay : Nat) :
    apply_op t (.addChannel cid net delay) =
      { t with channels := t.channels ++ [⟨cid, net, delay, [], []⟩] } := rfl

theorem apply_op_attach_pos (t : Topo) (n0 c0 : Nat) (g : Option String)
    (hv : n0 < t.nodes.length ∧ c0 < t.channels.length) :
    apply_op t (.attach n0 c0 g) =
      { nodes := t.nodes.set n0 { nodeD t n0 with
          interfaces := (nodeD t n0).interfaces ++ [t.ifaces.length] },
        ifaces := t.ifaces ++
          [⟨n0, c0, g.getD ("i" ++ Nat.repr (nodeD t n0).interfaces.length),
            (chanD t c0).interfaces.length⟩],
        channels := t.channels.set c0 { chanD t c0 with
          interfaces := (chanD t c0).interfaces ++ [t.ifaces.length] } } := by
  simp only [apply_op, if_pos hv]

theorem apply_op_attach_neg (t : Topo) (n0 c0 : Nat) (g : Option String)
    (hv : ¬ (n0 < t.nodes.length ∧ c0 < t.channels.length)) :
    apply_op t (.attach n0 c0 g) = t := by
  simp only [apply_op, if_neg hv]

theorem nodes_length_addNode (t : Topo) (d comp : String) (inc : Bool) :
    (apply_op t (.addNode d comp inc)).nodes.length = t.nodes.length + 1 := by
  rw [apply_op_addNode]; simp

theorem nodeD_addNode_lt (t : Topo) (d comp : String) (inc : Bool) (n : Nat)
    (hn : n < t.nodes.length) :
    nodeD (apply_op t (.addNode d comp inc)) n = nodeD t n := by
  rw [apply_op_addNode]
  simp only [nodeD]
  exact List.getD_append _ _ _ _ hn

theorem nodeD_addNode_last (t : Topo) (d comp : String) (inc : Bool) :
    nodeD (apply_op t (.addNode d comp inc)) t.nodes.length = ⟨d, comp, inc, []⟩ := by
  rw [apply_op_addNode]
  simp only [nodeD]
  exact getD_append_last _ _ _

theorem ifaceD_addNode (t : Topo) (d comp : String) (inc : Bool) (i : Nat) :
    ifaceD (apply_op t (.addNode d comp inc)) i = ifaceD t i := rfl

theorem chanD_addNode (t : Topo) (d comp : String) (inc : Bool) (c : Nat) :
    chanD (apply_op t (.addNode d comp inc)) c = chanD t c := rfl

theorem ifaces_length_addNode (t : Topo) (d comp : String) (inc : Bool) :
    (apply_op t (.addNode d comp inc)).ifaces.length = t.ifaces.length := rfl

theorem channels_length_addNode (t : Topo) (d comp : String) (inc : Bool) :
    (apply_op t (.addNode d comp inc)).channels.length = t.channels.length := rfl

theorem channels_length_addChannel (t : Topo) (cid : String) (net : IPv4Net) (delay : Nat) :
    (apply_op t (.addChannel cid net delay)).channels.length = t.channels.length + 1 := by
  rw [apply_op_addChannel]; simp

theorem chanD_addChannel_lt (t : Topo) (cid : String) (net : IPv4Net) (delay : Nat) (c : Nat)
    (hc : c < t.channels.length) :
    chanD (apply_op t (.addChannel cid net delay)) c = chanD t c := by
  rw [apply_op_addChannel]
  simp only [chanD]
  exact List.getD_append _ _ _ _ hc

theorem chanD_addChannel_last (t : Topo) (cid : String) (net : IPv4Net) (delay : Nat) :
    chanD (apply_op t (.addChannel cid net delay)) t.channels.length
      = ⟨cid, net, delay, [], []⟩ := by
  rw [apply_op_addChannel]
  simp only [chanD]
  exact getD_append_last _ _ _

theorem nodeD_addChannel (t : Topo) (cid : String) (net : IPv4Net) (delay : Nat) (n : Nat) :
    nodeD (apply_op t (.addChannel cid net delay)) n = nodeD t n := rfl

theorem ifaceD_addChannel (t : Topo) (cid : String) (net : IPv4Net) (delay : Nat) (i : Nat) :
    ifaceD (apply_op t (.addChannel cid net delay)) i = ifaceD t i := rfl

theorem nodes_length_addChannel (t : Topo) (cid : String) (net : IPv4Net) (delay : Nat) :
    (apply_op t (.addChannel cid net delay)).nodes.length = t.nodes.length := rfl

theorem ifaces_length_addChannel (t : Topo) (cid : String) (net : IPv4Net) (delay : Nat) :
    (apply_op t (.addChannel cid net delay)).ifaces.length = t.ifaces.length := rfl

/-- The new interface created by a valid `attach`. -/
def newIface (t : Topo) (n0 c0 : Nat) (g : Option String) : Iface :=
  ⟨n0, c0, g.getD ("i" ++ Nat.repr (nodeD t n0).interfaces.length),
    (chanD t c0).interfaces.length⟩

theorem nodes_length_attach (t : Topo) (n0 c0 : Nat) (g : Option String)
    (hv : n0 < t.nodes.length ∧ c0 < t.channels.length) :
    (apply_op t (.attach n0 c0 g)).nodes.length = t.nodes.length := by
  rw [apply_op_attach_pos t n0 c0 g hv]; simp

theorem channels_length_attach (t : Topo) (n0 c0 : Nat) (g : Option String)
    (hv : n0 < t.nodes.length ∧ c0 < t.channels.length) :
    (apply_op t (.attach n0 c0 g)).channels.length = t.channels.length := by
  rw [apply_op_attach_pos t n0 c0 g hv]; simp

theorem ifaces_length_attach (t : Topo) (n0 c0 : Nat) (g : Option String)
    (hv : n0 < t.nodes.length ∧ c0 < t.channels.length) :
    (apply_op t (.attach n0 c0 g)).ifaces.length = t.ifaces.length + 1 := by
  rw [apply_op_attach_pos t n0 c0 g hv]; simp

theorem nodeD_attach_ne (t : Topo) (n0 c0 : Nat) (g : Option String)
    (hv : n0 < t.nodes.length ∧ c0 < t.channels.length) (n : Nat) (hne : n ≠ n0) :
    nodeD (apply_op t (.attach n0 c0 g)) n = nodeD t n := by
  rw [apply_op_attach_pos t n0 c0 g hv]
  simp only [nodeD]
  exact getD_set_ne (fun hc => hne hc.symm) _ _

theorem nodeD_attach_self (t : Topo) (n0 c0 : Nat) (g : Option String)
    (hv : n0 < t.nodes.length ∧ c0 < t.channels.length) :
    nodeD (apply_op t (.attach n0 c0 g)) n0
      = { nodeD t n0 with interfaces := (nodeD t n0).interfaces ++ [t.ifaces.length] } := by
  rw [apply_op_attach_pos t n0 c0 g hv]
  simp only [nodeD]
  exact getD_set_self hv.1 _ _

theorem chanD_attach_ne (t : Topo) (n0 c0 : Nat) (g : Option String)
    (hv : n0 < t.nodes.length ∧ c0 < t.channels.length) (c : Nat) (hne : c ≠ c0) :
    chanD (apply_op t (.attach n0 c0 g)) c = chanD t c := by
  rw [apply_op_attach_pos t n0 c0 g hv]
  simp only [chanD]
  exact getD_set_ne (fun hc => hne hc.symm) _ _

theorem chanD_attach_self (t : Topo) (n0 c0 : Nat) (g : Option String)
    (hv : n0 < t.nodes.length ∧ c0 < t.channels.length) :
    chanD (apply_op t (.attach n0 c0 g)) c0
      = { chanD t c0 with interfaces := (chanD t c0).interfaces ++ [t.ifaces.length] } := by
  rw [apply_op_attach_pos t n0 c0 g hv]
  simp only [chanD]
  exact getD_set_self hv.2 _ _

theorem ifaceD_attach_lt (t : Topo) (n0 c0 : Nat) (g : Option String)
    (hv : n0 < t.nodes.length ∧ c0 < t.channels.length) (i : Nat) (hi : i < t.ifaces.length) :
    ifaceD (apply_op t (.attach n0 c0 g)) i = ifaceD t i := by
  rw [apply_op_attach_pos t n0 c0 g hv]
  simp only [ifaceD]
  exact List.getD_append _ _ _ _ hi

theorem ifaceD_attach_last (t : Topo) (n0 c0 : Nat) (g : Option String)
    (hv : n0 < t.nodes.length ∧ c0 < t.channels.length) :
    ifaceD (apply_op t (.attach n0 c0 g)) t.ifaces.length = newIface t n0 c0 g := by
  rw [apply_op_attach_pos t n0 c0 g hv]
  simp only [ifaceD, newIface]
  exact getD_append_last _ _ _

/-! ### Auto-generated interface identifiers (claim C9) -/

/-- Every interface a node owns carries the auto-generated identifier
`i<position>`; holds for every topology built with only automatic ids. -/
def autoIdsOk (t : Topo) : Prop :=
  ∀ n, n < t.nodes.length →
    ∀ k, k < (nodeD t n).interfaces.length →
      (nodeD t n).interfaces.getD k 0 < t.ifaces.length ∧
      (ifaceD t ((nodeD t n).interfaces.getD k 0)).ident = "i" ++ Nat.repr k

instance (t : Topo) : Decidable (autoIdsOk t) := by
  unfold autoIdsOk; infer_instance

/-- Construction steps whose `attach` operations use no explicit identifier. -/
def attachAuto : Op → Prop
  | .attach _ _ gid => gid = none
  | _ => True

instance : DecidablePred attachAuto := by
  intro op
  cases op with
  | addNode d c i => exact isTrue trivial
  | addChannel c n de => exact isTrue trivial
  | attach n c gid => unfold attachAuto; infer_instance

theorem autoIdsOk_apply_op (t : Topo) (op : Op) (hop : attachAuto op)
    (h : autoIdsOk t) : autoIdsOk (apply_op t op) := by
  cases op with
  | addNode d comp inc =>
    intro n hn k hk
    rw [nodes_length_addNode] at hn
    by_cases hlt : n < t.nodes.length
    · rw [nodeD_addNode_lt t d comp inc n hlt] at hk ⊢
      rw [ifaceD_addNode, ifaces_length_addNode]
      exact h n hlt k hk
    · have hlen : n = t.nodes.length := by omega
      subst hlen
      rw [nodeD_addNode_last] at hk
      simp at hk
  | addChannel cid net delay =>
    intro n hn k hk
    rw [nodes_length_addChannel] at hn
    rw [nodeD_addChannel] at hk ⊢
    rw [ifaceD_addChannel, ifaces_length_addChannel]
    exact h n hn k hk
  | attach n0 c0 gid =>
    have hgid : gid = none := hop
    subst hgid
    by_cases hv : n0 < t.nodes.length ∧ c0 < t.channels.length
    · intro n hn k hk
      rw [nodes_length_attach t n0 c0 none hv] at hn
      rw [ifaces_length_attach t n0 c0 none hv]
      by_cases hne : n = n0
      · subst hne
        rw [nodeD_attach_self t n c0 none hv] at hk ⊢
        simp only [List.length_append, List.length_singleton] at hk
        by_cases hkold : k < (nodeD t n).interfaces.length
        · have hmem : ((nodeD t n).interfaces ++ [t.ifaces.length]).getD k 0
              = (nodeD t n).interfaces.getD k 0 := List.getD_append _ _ _ _ hkold
          simp only [hmem]
          obtain ⟨hb, hid⟩ := h n hv.1 k hkold
          refine ⟨by omega, ?_⟩
          rw [ifaceD_attach_lt t n c0 none hv _ hb]
          exact hid
        · have hkeq : k = (nodeD t n).interfaces.length := by omega
          subst hkeq
          simp only [getD_append_last]
          refine ⟨by omega, ?_⟩
          rw [ifaceD_attach_last t n c0 none hv]
          rfl
      · rw [nodeD_attach_ne t n0 c0 none hv n hne] at hk ⊢
        obtain ⟨hb, hid⟩ := h n hn k hk
        refine ⟨by omega, ?_⟩
        rw [ifaceD_attach_lt t n0 c0 none hv _ hb]
        exact hid
    · rw [apply_op_attach_neg t n0 c0 none hv]
      exact h

theorem autoIdsOk_apply_ops (t : Topo) (ops : List Op)
    (hops : ∀ op ∈ ops, attachAuto op) (h : autoIdsOk t) :
    autoIdsOk (apply_ops t ops) :=
  foldl_preserve autoIdsOk apply_op ops
    (fun st op hmem hst => autoIdsOk_apply_op st op (hops op hmem) hst) t h

theorem node_ids_formula (t : Topo) (h : autoIdsOk t) (n : Nat) (hn : n < t.nodes.length) :
    node_ids t n = (List.range (nodeD t n).interfaces.length).map
      (fun k => "i" ++ Nat.repr k) := by
  apply List.ext_getElem
  · simp [node_ids]
  · intro k h1 h2
    simp only [node_ids, List.getElem_map, List.getElem_range]
    simp only [node_ids, List.length_map] at h1
    have hidk := (h n hn k h1).2
    rw [← List.getD_eq_getElem (nodeD t n).interfaces (0 : Nat) h1]
    exact hidk

/-- Identifiers of a node are pairwise distinct when every attachment used the
auto-generated id. -/
theorem auto_ids_nodup (t : Topo) (h : autoIdsOk t) (n : Nat) :
    (node_ids t n).Nodup := by
  by_cases hn : n < t.nodes.length
  · rw [node_ids_formula t h n hn]
    exact (List.nodup_range _).map (fun a b hab => auto_id_inj hab)
  · have hnil : (nodeD t n).interfaces = [] := by
      unfold nodeD
      rw [List.getD_eq_default]
      · rfl
      · omega
    simp [node_ids, hnil]

/-- C9 (amended): in any topology whose attachments all used auto-generated
identifiers (the collision counterexample forces excluding explicit ids),
every node's interface identifiers are pairwise distinct. -/
theorem interface_ids_distinct_amended (t : Topo) (ops : List Op)
    (h0 : autoIdsOk t) (hops : ∀ op ∈ ops, attachAuto op) (n : Nat) :
    (node_ids (apply_ops t ops) n).Nodup :=
  auto_ids_nodup _ (autoIdsOk_apply_ops t ops hops h0) n

theorem interface_ids_distinct_amended_witness :
    (node_ids (apply_ops emptyTopo parallelOps) 1).Nodup :=
  interface_ids_distinct_amended emptyTopo parallelOps (by decide) (by decide) 1

/-! ### Channel member offsets (claim C6) -/

/-- The `k`-th member interface of every channel records offset `k` and points
back to its channel: the state `Channel.add_interface` maintains. -/
def offsetsOk (t : Topo) : Prop :=
  ∀ c, c < t.channels.length →
    ∀ k, k < (chanD t c).interfaces.length →
      (chanD t c).interfaces.getD k 0 < t.ifaces.length ∧
      (ifaceD t ((chanD t c).interfaces.getD k 0)).offset = k ∧
      (ifaceD t ((chanD t c).interfaces.getD k 0)).channel = c

instance (t : Topo) : Decidable (offsetsOk t) := by
  unfold offsetsOk; infer_instance

theorem offsetsOk_apply_op (t : Topo) (op : Op) (h : offsetsOk t) :
    offsetsOk (apply_op t op) := by
  cases op with
  | addNode d comp inc =>
    intro c hc k hk
    rw [channels_length_addNode] at hc
    rw [chanD_addNode] at hk ⊢
    rw [ifaceD_addNode, ifaces_length_addNode]
    exact h c hc k hk
  | addChannel cid net delay =>
    intro c hc k hk
    rw [channels_length_addChannel] at hc
    by_cases hlt : c < t.channels.length
    · rw [chanD_addChannel_lt t cid net delay c hlt] at hk ⊢
      rw [ifaceD_addChannel, ifaces_length_addChannel]
      exact h c hlt k hk
    · have hlen : c = t.channels.length := by omega
      subst hlen
      rw [chanD_addChannel_last] at hk
      simp at hk
  | attach n0 c0 gid =>
    by_cases hv : n0 < t.nodes.length ∧ c0 < t.channels.length
    · intro c hc k hk
      rw [channels_length_attach t n0 c0 gid hv] at hc
      rw [ifaces_length_attach t n0 c0 gid hv]
      by_cases hne : c = c0
      · subst hne
        rw [chanD_attach_self t n0 c gid hv] at hk ⊢
        simp only [List.length_append, List.length_singleton] at hk
        by_cases hkold : k < (chanD t c).interfaces.length
        · have hmem : ((chanD t c).interfaces ++ [t.ifaces.length]).getD k 0
              = (chanD t c).interfaces.getD k 0 := List.getD_append _ _ _ _ hkold
          simp only [hmem]
          obtain ⟨hb, hoff, hch⟩ := h c hv.2 k hkold
          refine ⟨by omega, ?_, ?_⟩
          · rw [ifaceD_attach_lt t n0 c gid hv _ hb]
            exact hoff
          · rw [ifaceD_attach_lt t n0 c gid hv _ hb]
            exact hch
        · have hkeq : k = (chanD t c).interfaces.length := by omega
          subst hkeq
          simp only [getD_append_last]
          refine ⟨by omega, ?_, ?_⟩
          · rw [ifaceD_attach_last t n0 c gid hv]
            rfl
          · rw [ifaceD_attach_last t n0 c gid hv]
            rfl
      · rw [chanD_attach_ne t n0 c0 gid hv c hne] at hk ⊢
        obtain ⟨hb, hoff, hch⟩ := h c hc k hk
        refine ⟨by omega, ?_, ?_⟩
        · rw [ifaceD_attach_lt t n0 c0 gid hv _ hb]
          exact hoff
        · rw [ifaceD_attach_lt t n0 c0 gid hv _ hb]
          exact hch
    · rw [apply_op_attach_neg t n0 c0 gid hv]
      exact h

theorem offsetsOk_apply_ops (t : Topo) (ops : List Op) (h : offsetsOk t) :
    offsetsOk (apply_ops t ops) :=
  foldl_preserve offsetsOk apply_op ops (fun st op _ hst => offsetsOk_apply_op st op hst) t h

/-- C6: in any topology built by construction steps from an offset-consistent
start, the `k`-th interface attached to a channel (0-indexed, attachment
order) receives the address at host offset `k + 1` within the channel's block,
at the block's prefix length, however attachments to other channels are
interleaved. -/
theorem address_determinism (t : Topo) (ops : List Op) (h0 : offsetsOk t) (c k : Nat)
    (hc : c < (apply_ops t ops).channels.length)
    (hk : k < (chanD (apply_ops t ops) c).interfaces.length)
    (hcap : k + 2 ≤ netSize (chanD (apply_ops t ops) c).network) :
    get_ip (apply_ops t ops) ((chanD (apply_ops t ops) c).interfaces.getD k 0)
      = some ((chanD (apply_ops t ops) c).network.base + k + 1,
              (chanD (apply_ops t ops) c).network.plen) := by
  obtain ⟨hb, hoff, hch⟩ := offsetsOk_apply_ops t ops h0 c hc k hk
  unfold get_ip
  simp only [hoff, hch]
  rw [if_pos (by omega)]

/-- A one-node, two-channel topology whose attachments alternate between the
two channels. -/
def interleaveOps : List Op :=
  [ .addNode ("router") ("simple-router") true
  , .addChannel ("A") ⟨167772160, 30⟩ 0
  , .addChannel ("B") ⟨167772164, 28⟩ 0
  , .attach 0 0 none, .attach 0 1 none, .attach 0 0 none
  , .attach 0 1 none, .attach 0 0 none ]

theorem address_determinism_witness :
    get_ip (apply_ops emptyTopo interleaveOps)
        ((chanD (apply_ops emptyTopo interleaveOps) 0).interfaces.getD 2 0)
      = some ((chanD (apply_ops emptyTopo interleaveOps) 0).network.base + 2 + 1,
              (chanD (apply_ops emptyTopo interleaveOps) 0).network.plen) :=
  address_determinism emptyTopo interleaveOps (by decide) 0 2 (by decide) (by decide) (by decide)

/-! ### `NetworkPool` allocation (claim C7) -/

theorem gen_iter_eq_get? : ∀ (k : Nat) (pool : List IPv4Net), gen_iter pool k = pool.get? k := by
  intro k
  induction k with
  | zero =>
    intro pool
    cases pool with
    | nil => rfl
    | cons x xs => rfl
  | succ k ih =>
    intro pool
    cases pool with
    | nil => rfl
    | cons x xs => exact ih xs

theorem subnets_length (parent : IPv4Net) (p : Nat) :
    (subnets parent p).length = 2 ^ (p - parent.plen) := by
  simp [subnets]

theorem subnets_get? (parent : IPv4Net) (p : Nat) (i : Nat) (hi : i < 2 ^ (p - parent.plen)) :
    (subnets parent p).get? i = some ⟨parent.base + i * 2 ^ (32 - p), p⟩ := by
  simp [subnets, List.get?_eq_getElem?, List.getElem?_map, List.getElem?_range, hi]

/-- C7: the pool built from a parent block at sub-prefix length `p` hands out,
across any sequence of successful `gen_network()` calls, pairwise
non-overlapping blocks that all belong to the parent's sub-block partition at
prefix length `p`, and never the same block twice. -/
theorem pool_allocations_disjoint (parent : IPv4Net) (p : Nat)
    (hp1 : parent.plen ≤ p) (hp2 : p ≤ 32) (i j : Nat) (hij : i ≠ j) (a b : IPv4Net)
    (ha : gen_iter (subnets parent p) i = some a)
    (hb : gen_iter (subnets parent p) j = some b) :
    ¬ overlapNet a b ∧ a ∈ subnets parent p ∧ b ∈ subnets parent p ∧ a ≠ b := by
  rw [gen_iter_eq_get?] at ha hb
  have hilt : i < 2 ^ (p - parent.plen) := by
    by_contra hc
    rw [List.get?_eq_none.2 (by rw [subnets_length]; omega)] at ha
    exact Option.noConfusion ha
  have hjlt : j < 2 ^ (p - parent.plen) := by
    by_contra hc
    rw [List.get?_eq_none.2 (by rw [subnets_length]; omega)] at hb
    exact Option.noConfusion hb
  rw [subnets_get? parent p i hilt] at ha
  rw [subnets_get? parent p j hjlt] at hb
  have haeq : a = ⟨parent.base + i * 2 ^ (32 - p), p⟩ := by
    exact (Option.some.injEq _ _ ▸ ha).symm
  have hbeq : b = ⟨parent.base + j * 2 ^ (32 - p), p⟩ := by
    exact (Option.some.injEq _ _ ▸ hb).symm
  have hs : 0 < 2 ^ (32 - p) := Nat.pos_pow_of_pos _ (by omega)
  refine ⟨?_, ?_, ?_, ?_⟩
  · intro hov
    obtain ⟨h1, h2⟩ := hov
    rw [haeq, hbeq] at h1 h2
    simp only [netSize] at h1 h2
    rcases Nat.lt_or_ge i j with hlt | hge
    · have hm : i * 2 ^ (32 - p) + 2 ^ (32 - p) ≤ j * 2 ^ (32 - p) := by
        have h1 : (i + 1) * 2 ^ (32 - p) ≤ j * 2 ^ (32 - p) :=
          Nat.mul_le_mul_right _ (by omega)
        calc i * 2 ^ (32 - p) + 2 ^ (32 - p) = (i + 1) * 2 ^ (32 - p) := by ring
          _ ≤ j * 2 ^ (32 - p) := h1
      linarith
    · have hjlt2 : j < i := by omega
      have hm : j * 2 ^ (32 - p) + 2 ^ (32 - p) ≤ i * 2 ^ (32 - p) := by
        have h1 : (j + 1) * 2 ^ (32 - p) ≤ i * 2 ^ (32 - p) :=
          Nat.mul_le_mul_right _ (by omega)
        calc j * 2 ^ (32 - p) + 2 ^ (32 - p) = (j + 1) * 2 ^ (32 - p) := by ring
          _ ≤ i * 2 ^ (32 - p) := h1
      linarith
  · rw [haeq]
    simp only [subnets, List.mem_map, List.mem_range]
    exact ⟨i, hilt, rfl⟩
  · rw [hbeq]
    simp only [subnets, List.mem_map, List.mem_range]
    exact ⟨j, hjlt, rfl⟩
  · rw [haeq, hbeq]
    intro hc
    have hbase : parent.base + i * 2 ^ (32 - p) = parent.base + j * 2 ^ (32 - p) := by
      exact congrArg IPv4Net.base hc
    have : i * 2 ^ (32 - p) = j * 2 ^ (32 - p) := by omega
    exact hij (Nat.eq_of_mul_eq_mul_right hs this)

theorem pool_allocations_disjoint_witness :
    ¬ overlapNet ⟨167772160, 30⟩ ⟨167772164, 30⟩ ∧
    (⟨167772160, 30⟩ : IPv4Net) ∈ subnets ⟨167772160, 24⟩ 30 ∧
    (⟨167772164, 30⟩ : IPv4Net) ∈ subnets ⟨167772160, 24⟩ 30 ∧
    (⟨167772160, 30⟩ : IPv4Net) ≠ ⟨167772164, 30⟩ :=
  pool_allocations_disjoint ⟨167772160, 24⟩ 30 (by decide) (by decide) 0 1 (by decide)
    ⟨167772160, 30⟩ ⟨167772164, 30⟩ (by decide) (by decide)

/-! ### Queries before distribution (claim C8) -/

theorem chanD_routes_empty (t : Topo) (h : routes_empty t) (c : Nat) :
    (chanD t c).routes = [] := by
  by_cases hc : c < t.channels.length
  · unfold chanD
    rw [List.getD_eq_getElem _ _ hc]
    exact h _ (List.getElem_mem hc)
  · unfold chanD
    rw [List.getD_eq_default _ _ (by omega)]
    rfl

theorem get_routes_empty (t : Topo) (h : routes_empty t) (n : Nat) :
    get_routes t n = [] := by
  unfold get_routes
  have hl : ∀ (l : List Nat) (acc : List (Nat × Nat × Nat × Nat)),
      List.foldl (fun acc i =>
        ((chanD t (ifaceD t i).channel).routes).foldl
          (fun acc r => dictInsertMin acc r.1 (i, r.2.1, r.2.2)) acc) acc l = acc := by
    intro l
    induction l with
    | nil => intro acc; rfl
    | cons x xs ih =>
      intro acc
      rw [List.foldl_cons, chanD_routes_empty t h, List.foldl_nil]
      exact ih acc
  exact hl _ []

/-- C8 (amended): querying routes or dumping route tables before
`distribute_routes()` has executed returns normally with empty route data; the
source raises no `DistributionNotRun` (or any other) error. -/
theorem pre_distribution_returns_empty (t : Topo) (h : routes_empty t) (n : Nat) :
    get_routes t n = [] ∧ get_simplified_routes t n = [] ∧ dump_routes t n = some [] := by
  have hg : get_routes t n = [] := get_routes_empty t h n
  have hs : get_simplified_routes t n = [] := by
    unfold get_simplified_routes
    rw [hg]
    rfl
  refine ⟨hg, hs, ?_⟩
  unfold dump_routes emitted_routes
  rw [hs]
  rfl

theorem pre_distribution_returns_empty_witness :
    get_routes roundTripTopo 0 = [] ∧ get_simplified_routes roundTripTopo 0 = [] ∧
      dump_routes roundTripTopo 0 = some [] :=
  pre_distribution_returns_empty roundTripTopo (by decide) 0

/-! ### Invariants of the breadth-first traversal -/

/-- `known` always consists of the origin followed by the targets of the
records appended so far, without duplicates. -/
def knownRecsInv (origin : Nat) (st : BfsSt) : Prop :=
  st.known = origin :: st.recs.map (fun r => r.1) ∧ st.known.Nodup

theorem step_out_inv (t : Topo) (o d : Nat) (st : BfsSt) (i : Nat)
    (h : knownRecsInv o st) : knownRecsInv o (step_out t o d st i) := by
  unfold step_out
  by_cases hm : (ifaceD t i).channel ∈ st.known
  · rw [if_pos hm]
    exact h
  · rw [if_neg hm]
    constructor
    · show st.known ++ [(ifaceD t i).channel]
        = o :: (st.recs ++ [((ifaceD t i).channel, o, i, d + 1)]).map (fun r => r.1)
      rw [h.1]
      simp
    · show (st.known ++ [(ifaceD t i).channel]).Nodup
      simp [List.nodup_append, h.2, hm]

theorem step_in_inv (t : Topo) (o d : Nat) (st : BfsSt) (i : Nat)
    (h : knownRecsInv o st) : knownRecsInv o (step_in t o d st i) :=
  foldl_preserve (knownRecsInv o) (step_out t o d) _
    (fun st' j _ h' => step_out_inv t o d st' j h') st h

theorem step_channel_inv (t : Topo) (o : Nat) (st : BfsSt) (c d : Nat)
    (h : knownRecsInv o st) : knownRecsInv o (step_channel t o st c d) :=
  foldl_preserve (knownRecsInv o) (step_in t o d) _
    (fun st' j _ h' => step_in_inv t o d st' j h') st h

theorem bfs_loop_nodup (t : Topo) (o : Nat) :
    ∀ (fuel : Nat) (st : BfsSt), knownRecsInv o st →
      (o :: (bfs_loop t o fuel st).map (fun r => r.1)).Nodup := by
  intro fuel
  induction fuel with
  | zero =>
    intro st h
    show (o :: st.recs.map (fun r => r.1)).Nodup
    rw [← h.1]
    exact h.2
  | succ f ih =>
    intro st h
    obtain ⟨kn, qu, rs⟩ := st
    cases qu with
    | nil =>
      show (o :: rs.map (fun r => r.1)).Nodup
      rw [← h.1]
      exact h.2
    | cons cd q =>
      obtain ⟨c, d⟩ := cd
      show (o :: (bfs_loop t o f (step_channel t o ⟨kn, q, rs⟩ c d)).map (fun r => r.1)).Nodup
      exact ih _ (step_channel_inv t o ⟨kn, q, rs⟩ c d ⟨h.1, h.2⟩)

theorem bfs_run_nodup (t : Topo) (o : Nat) :
    (o :: (bfs_run t o).map (fun r => r.1)).Nodup :=
  bfs_loop_nodup t o t.channels.length ⟨[o], [(o, 0)], []⟩ (by constructor <;> simp)

/-- Shape of every record the traversal from `o` appends: origin field `o`,
distance at least 1, and the gateway interface lying on the target channel. -/
def recShape (t : Topo) (o : Nat) (r : Nat × Nat × Nat × Nat) : Prop :=
  r.2.1 = o ∧ 1 ≤ r.2.2.2 ∧ (ifaceD t r.2.2.1).channel = r.1

theorem step_out_shape (t : Topo) (o d : Nat) (st : BfsSt) (i : Nat)
    (h : ∀ r ∈ st.recs, recShape t o r) : ∀ r ∈ (step_out t o d st i).recs, recShape t o r := by
  unfold step_out
  by_cases hm : (ifaceD t i).channel ∈ st.known
  · rw [if_pos hm]
    exact h
  · rw [if_neg hm]
    intro r hr
    simp only [List.mem_append, List.mem_singleton] at hr
    rcases hr with hr | hr
    · exact h r hr
    · subst hr
      exact ⟨rfl, Nat.succ_le_succ (Nat.zero_le d), rfl⟩

theorem step_in_shape (t : Topo) (o d : Nat) (st : BfsSt) (i : Nat)
    (h : ∀ r ∈ st.recs, recShape t o r) : ∀ r ∈ (step_in t o d st i).recs, recShape t o r :=
  foldl_preserve (fun st' => ∀ r ∈ st'.recs, recShape t o r) (step_out t o d) _
    (fun st' j _ h' => step_out_shape t o d st' j h') st h

theorem step_channel_shape (t : Topo) (o : Nat) (st : BfsSt) (c d : Nat)
    (h : ∀ r ∈ st.recs, recShape t o r) :
    ∀ r ∈ (step_channel t o st c d).recs, recShape t o r :=
  foldl_preserve (fun st' => ∀ r ∈ st'.recs, recShape t o r) (step_in t o d) _
    (fun st' j _ h' => step_in_shape t o d st' j h') st h

theorem bfs_loop_shape (t : Topo) (o : Nat) :
    ∀ (fuel : Nat) (st : BfsSt), (∀ r ∈ st.recs, recShape t o r) →
      ∀ r ∈ bfs_loop t o fuel st, recShape t o r := by
  intro fuel
  induction fuel with
  | zero => intro st h; exact h
  | succ f ih =>
    intro st h
    obtain ⟨kn, qu, rs⟩ := st
    cases qu with
    | nil => exact h
    | cons cd q =>
      obtain ⟨c, d⟩ := cd
      show ∀ r ∈ bfs_loop t o f (step_channel t o ⟨kn, q, rs⟩ c d), recShape t o r
      exact ih _ (step_channel_shape t o ⟨kn, q, rs⟩ c d h)

theorem bfs_run_shape (t : Topo) (o : Nat) : ∀ r ∈ bfs_run t o, recShape t o r :=
  bfs_loop_shape t o t.channels.length ⟨[o], [(o, 0)], []⟩ (by intro r hr; simp at hr)

theorem step_out_mono (t : Topo) (o d : Nat) (st : BfsSt) (i : Nat) :
    ∀ r ∈ st.recs, r ∈ (step_out t o d st i).recs := by
  unfold step_out
  by_cases hm : (ifaceD t i).channel ∈ st.known
  · rw [if_pos hm]
    exact fun r hr => hr
  · rw [if_neg hm]
    intro r hr
    exact List.mem_append_left _ hr

theorem step_in_mono (t : Topo) (o d : Nat) (st : BfsSt) (i : Nat) :
    ∀ r ∈ st.recs, r ∈ (step_in t o d st i).recs :=
  foldl_preserve (fun st' => ∀ r ∈ st.recs, r ∈ st'.recs) (step_out t o d) _
    (fun st' j _ h' r hr => step_out_mono t o d st' j r (h' r hr)) st (fun _ hr => hr)

theorem step_channel_mono (t : Topo) (o : Nat) (st : BfsSt) (c d : Nat) :
    ∀ r ∈ st.recs, r ∈ (step_channel t o st c d).recs :=
  foldl_preserve (fun st' => ∀ r ∈ st.recs, r ∈ st'.recs) (step_in t o d) _
    (fun st' j _ h' r hr => step_in_mono t o d st' j r (h' r hr)) st (fun _ hr => hr)

theorem bfs_loop_mono (t : Topo) (o : Nat) :
    ∀ (fuel : Nat) (st : BfsSt), ∀ r ∈ st.recs, r ∈ bfs_loop t o fuel st := by
  intro fuel
  induction fuel with
  | zero => intro st r hr; exact hr
  | succ f ih =>
    intro st r hr
    obtain ⟨kn, qu, rs⟩ := st
    cases qu with
    | nil => exact hr
    | cons cd q =>
      obtain ⟨c, d⟩ := cd
      show r ∈ bfs_loop t o f (step_channel t o ⟨kn, q, rs⟩ c d)
      exact ih _ r (step_channel_mono t o ⟨kn, q, rs⟩ c d r hr)

/-- All queued distances at least 1, and all records beyond a baseline have
distance at least 2: the state after the origin itself has been processed. -/
def laterInv (L : List (Nat × Nat × Nat × Nat)) (st : BfsSt) : Prop :=
  (∀ q ∈ st.queue, 1 ≤ q.2) ∧ (∀ r ∈ st.recs, r ∈ L ∨ 2 ≤ r.2.2.2)

theorem step_out_later (t : Topo) (o d : Nat) (hd : 1 ≤ d) (L : List (Nat × Nat × Nat × Nat))
    (st : BfsSt) (i : Nat) (h : laterInv L st) : laterInv L (step_out t o d st i) := by
  unfold step_out
  by_cases hm : (ifaceD t i).channel ∈ st.known
  · rw [if_pos hm]
    exact h
  · rw [if_neg hm]
    constructor
    · intro q hq
      simp only [List.mem_append, List.mem_singleton] at hq
      rcases hq with hq | hq
      · exact h.1 q hq
      · subst hq
        exact Nat.le_add_left 1 d
    · intro r hr
      simp only [List.mem_append, List.mem_singleton] at hr
      rcases hr with hr | hr
      · exact h.2 r hr
      · subst hr
        exact Or.inr (show 2 ≤ d + 1 by omega)

theorem step_in_later (t : Topo) (o d : Nat) (hd : 1 ≤ d) (L : List (Nat × Nat × Nat × Nat))
    (st : BfsSt) (i : Nat) (h : laterInv L st) : laterInv L (step_in t o d st i) :=
  foldl_preserve (laterInv L) (step_out t o d) _
    (fun st' j _ h' => step_out_later t o d hd L st' j h') st h

theorem step_channel_later (t : Topo) (o : Nat) (d : Nat) (hd : 1 ≤ d)
    (L : List (Nat × Nat × Nat × Nat)) (st : BfsSt) (c : Nat) (h : laterInv L st) :
    laterInv L (step_channel t o st c d) :=
  foldl_preserve (laterInv L) (step_in t o d) _
    (fun st' j _ h' => step_in_later t o d hd L st' j h') st h

theorem bfs_loop_later (t : Topo) (o : Nat) (L : List (Nat × Nat × Nat × Nat)) :
    ∀ (fuel : Nat) (st : BfsSt), laterInv L st →
      ∀ r ∈ bfs_loop t o fuel st, r ∈ L ∨ 2 ≤ r.2.2.2 := by
  intro fuel
  induction fuel with
  | zero => intro st h; exact h.2
  | succ f ih =>
    intro st h
    obtain ⟨kn, qu, rs⟩ := st
    cases qu with
    | nil => exact h.2
    | cons cd q =>
      obtain ⟨c, d⟩ := cd
      have hd : 1 ≤ d := h.1 (c, d) (List.mem_cons_self _ _)
      show ∀ r ∈ bfs_loop t o f (step_channel t o ⟨kn, q, rs⟩ c d), r ∈ L ∨ 2 ≤ r.2.2.2
      refine ih _ (step_channel_later t o d hd L ⟨kn, q, rs⟩ c ?_)
      exact ⟨fun q' hq' => h.1 q' (List.mem_cons_of_mem _ hq'), h.2⟩

/-- Records appended while processing the origin channel at distance 0:
the record is `(channel of g, origin, g, 1)` for a gateway `g` that is an
interface of a node sitting on the origin channel. -/
def firstRec (t : Topo) (o : Nat) (r : Nat × Nat × Nat × Nat) : Prop :=
  r = ((ifaceD t r.2.2.1).channel, o, r.2.2.1, 1) ∧
  ∃ i ∈ (chanD t o).interfaces, r.2.2.1 ∈ (nodeD t (ifaceD t i).node).interfaces

theorem step_in_first (t : Topo) (o : Nat) (st : BfsSt) (i : Nat)
    (P : Nat × Nat × Nat × Nat → Prop) (h : ∀ r ∈ st.recs, P r) :
    ∀ r ∈ (step_in t o 0 st i).recs,
      P r ∨ (r = ((ifaceD t r.2.2.1).channel, o, r.2.2.1, 1) ∧
             r.2.2.1 ∈ (nodeD t (ifaceD t i).node).interfaces) := by
  refine foldl_preserve (fun st' => ∀ r ∈ st'.recs,
      P r ∨ (r = ((ifaceD t r.2.2.1).channel, o, r.2.2.1, 1) ∧
             r.2.2.1 ∈ (nodeD t (ifaceD t i).node).interfaces))
    (step_out t o 0) _ ?_ st (fun r hr => Or.inl (h r hr))
  intro st' j hj hst'
  unfold step_out
  by_cases hm : (ifaceD t j).channel ∈ st'.known
  · rw [if_pos hm]
    exact hst'
  · rw [if_neg hm]
    intro r hr
    simp only [List.mem_append, List.mem_singleton] at hr
    rcases hr with hr | hr
    · exact hst' r hr
    · subst hr
      exact Or.inr ⟨rfl, hj⟩

theorem step_channel_first (t : Topo) (o : Nat) (st : BfsSt)
    (h : ∀ r ∈ st.recs, firstRec t o r) :
    ∀ r ∈ (step_channel t o st o 0).recs, firstRec t o r := by
  refine foldl_preserve (fun st' => ∀ r ∈ st'.recs, firstRec t o r)
    (step_in t o 0) _ ?_ st h
  intro st' i hi hst'
  intro r hr
  rcases step_in_first t o st' i (firstRec t o) hst' r hr with hc | hc
  · exact hc
  · exact ⟨hc.1, i, hi, hc.2⟩

/-- Membership in `known` only grows across a step. -/
theorem step_out_known_mono (t : Topo) (o d : Nat) (st : BfsSt) (i : Nat) :
    ∀ x ∈ st.known, x ∈ (step_out t o d st i).known := by
  unfold step_out
  by_cases hm : (ifaceD t i).channel ∈ st.known
  · rw [if_pos hm]
    exact fun x hx => hx
  · rw [if_neg hm]
    exact fun x hx => List.mem_append_left _ hx

theorem step_in_known_mono (t : Topo) (o d : Nat) (st : BfsSt) (i : Nat) :
    ∀ x ∈ st.known, x ∈ (step_in t o d st i).known :=
  foldl_preserve (fun st' => ∀ x ∈ st.known, x ∈ st'.known) (step_out t o d) _
    (fun st' j _ h' x hx => step_out_known_mono t o d st' j x (h' x hx)) st (fun _ hx => hx)

theorem step_out_self_known (t : Topo) (o d : Nat) (st : BfsSt) (i : Nat) :
    (ifaceD t i).channel ∈ (step_out t o d st i).known := by
  unfold step_out
  by_cases hm : (ifaceD t i).channel ∈ st.known
  · rw [if_pos hm]
    exact hm
  · rw [if_neg hm]
    exact List.mem_append_right _ (List.mem_singleton.2 rfl)

theorem foldl_covers {α β : Type} (f : α → β → α) (mem : α → β → Prop)
    (hstep : ∀ st x, mem (f st x) x) (hmono : ∀ st x y, mem st y → mem (f st x) y) :
    ∀ (l : List β) (st : α), ∀ y ∈ l, mem (List.foldl f st l) y := by
  intro l
  induction l with
  | nil => intro st y hy; simp at hy
  | cons x xs ih =>
    intro st y hy
    rcases List.mem_cons.1 hy with hy | hy
    · subst hy
      rw [List.foldl_cons]
      exact foldl_preserve (fun st' => mem st' y) f xs
        (fun st' z _ h' => hmono st' z y h') (f st y) (hstep st y)
    · rw [List.foldl_cons]
      exact ih (f st x) y hy

theorem step_in_covers (t : Topo) (o d : Nat) (st : BfsSt) (i : Nat) :
    ∀ j ∈ (nodeD t (ifaceD t i).node).interfaces,
      (ifaceD t j).channel ∈ (step_in t o d st i).known :=
  foldl_covers (step_out t o d) (fun st' j => (ifaceD t j).channel ∈ st'.known)
    (fun st' j => step_out_self_known t o d st' j)
    (fun st' j y hy => step_out_known_mono t o d st' j _ hy) _ st

theorem step_channel_covers (t : Topo) (o d : Nat) (st : BfsSt) (c : Nat) :
    ∀ i ∈ (chanD t c).interfaces, ∀ j ∈ (nodeD t (ifaceD t i).node).interfaces,
      (ifaceD t j).channel ∈ (step_channel t o st c d).known :=
  foldl_covers (step_in t o d)
    (fun st' i => ∀ j ∈ (nodeD t (ifaceD t i).node).interfaces, (ifaceD t j).channel ∈ st'.known)
    (fun st' i => step_in_covers t o d st' i)
    (fun st' i y hy j hj => step_in_known_mono t o d st' i _ (hy j hj)) _ st

theorem mem_eq_of_nodup_map_fst :
    ∀ (l : List (Nat × Nat × Nat × Nat)), (l.map (fun r => r.1)).Nodup →
      ∀ a ∈ l, ∀ b ∈ l, a.1 = b.1 → a = b := by
  intro l
  induction l with
  | nil => intro _ a ha; simp at ha
  | cons x xs ih =>
    intro h a ha b hb hfst
    simp only [List.map_cons, List.nodup_cons] at h
    rcases List.mem_cons.1 ha with ha1 | ha2
    · rcases List.mem_cons.1 hb with hb1 | hb2
      · rw [ha1, hb1]
      · subst ha1
        have hmem : b.1 ∈ xs.map (fun r => r.1) := List.mem_map_of_mem _ hb2
        rw [← hfst] at hmem
        exact absurd hmem h.1
    · rcases List.mem_cons.1 hb with hb1 | hb2
      · subst hb1
        have hmem : a.1 ∈ xs.map (fun r => r.1) := List.mem_map_of_mem _ ha2
        rw [hfst] at hmem
        exact absurd hmem h.1
      · exact ih h.2 a ha2 b hb2 hfst

/-! ### The traversal reads only graph structure, never accumulated routes -/

/-- Two states with the same nodes, interfaces, channel count and per-channel
membership and network: route distribution only ever changes `routes`. -/
def skEq (t t' : Topo) : Prop :=
  t'.nodes = t.nodes ∧ t'.ifaces = t.ifaces ∧ t'.channels.length = t.channels.length ∧
  ∀ c, (chanD t' c).interfaces = (chanD t c).interfaces ∧
       (chanD t' c).network = (chanD t c).network

theorem skEq_refl (t : Topo) : skEq t t := ⟨rfl, rfl, rfl, fun _ => ⟨rfl, rfl⟩⟩

theorem skEq_trans {t t' t'' : Topo} (h1 : skEq t t') (h2 : skEq t' t'') : skEq t t'' := by
  obtain ⟨a1, b1, c1, d1⟩ := h1
  obtain ⟨a2, b2, c2, d2⟩ := h2
  exact ⟨a2.trans a1, b2.trans b1, c2.trans c1,
    fun c => ⟨(d2 c).1.trans (d1 c).1, (d2 c).2.trans (d1 c).2⟩⟩

theorem nodeD_skEq {t t' : Topo} (h : skEq t t') (n : Nat) : nodeD t' n = nodeD t n := by
  unfold nodeD
  rw [h.1]

theorem ifaceD_skEq {t t' : Topo} (h : skEq t t') (i : Nat) : ifaceD t' i = ifaceD t i := by
  unfold ifaceD
  rw [h.2.1]

theorem step_out_skEq {t t' : Topo} (h : skEq t t') (o d : Nat) (st : BfsSt) (i : Nat) :
    step_out t' o d st i = step_out t o d st i := by
  unfold step_out
  rw [ifaceD_skEq h]

theorem step_in_skEq {t t' : Topo} (h : skEq t t') (o d : Nat) (st : BfsSt) (i : Nat) :
    step_in t' o d st i = step_in t o d st i := by
  unfold step_in
  rw [ifaceD_skEq h, nodeD_skEq h]
  exact List.foldl_ext _ _ st (fun st' j _ => step_out_skEq h o d st' j)

theorem step_channel_skEq {t t' : Topo} (h : skEq t t') (o : Nat) (st : BfsSt) (c d : Nat) :
    step_channel t' o st c d = step_channel t o st c d := by
  unfold step_channel
  rw [(h.2.2.2 c).1]
  exact List.foldl_ext _ _ st (fun st' j _ => step_in_skEq h o d st' j)

theorem bfs_loop_skEq {t t' : Topo} (h : skEq t t') (o : Nat) :
    ∀ (fuel : Nat) (st : BfsSt), bfs_loop t' o fuel st = bfs_loop t o fuel st := by
  intro fuel
  induction fuel with
  | zero => intro st; rfl
  | succ f ih =>
    intro st
    obtain ⟨kn, qu, rs⟩ := st
    cases qu with
    | nil => rfl
    | cons cd q =>
      obtain ⟨c, d⟩ := cd
      show bfs_loop t' o f (step_channel t' o ⟨kn, q, rs⟩ c d)
        = bfs_loop t o f (step_channel t o ⟨kn, q, rs⟩ c d)
      rw [step_channel_skEq h, ih]

theorem bfs_run_skEq {t t' : Topo} (h : skEq t t') (o : Nat) :
    bfs_run t' o = bfs_run t o := by
  unfold bfs_run
  rw [h.2.2.1, bfs_loop_skEq h]

/-! ### Applying the appended records -/

theorem append_rec_channels_length (t : Topo) (r : Nat × Nat × Nat × Nat) :
    (append_rec t r).channels.length = t.channels.length := by
  unfold append_rec
  simp

theorem append_rec_nodes (t : Topo) (r : Nat × Nat × Nat × Nat) :
    (append_rec t r).nodes = t.nodes := rfl

theorem append_rec_ifaces (t : Topo) (r : Nat × Nat × Nat × Nat) :
    (append_rec t r).ifaces = t.ifaces := rfl

theorem chanD_append_rec_ne (t : Topo) (r : Nat × Nat × Nat × Nat) (c : Nat) (hne : c ≠ r.1) :
    chanD (append_rec t r) c = chanD t c := by
  unfold append_rec chanD
  exact getD_set_ne (fun hc => hne hc.symm) _ _

theorem chanD_append_rec_self (t : Topo) (r : Nat × Nat × Nat × Nat) (hr : r.1 < t.channels.length) :
    chanD (append_rec t r) r.1
      = { chanD t r.1 with routes := (chanD t r.1).routes ++ [r.2] } := by
  unfold append_rec chanD
  exact getD_set_self hr _ _

theorem chanD_append_rec_oob (t : Topo) (r : Nat × Nat × Nat × Nat) (c : Nat)
    (hr : ¬ r.1 < t.channels.length) :
    chanD (append_rec t r) c = chanD t c := by
  simp only [append_rec, chanD]
  rw [List.set_eq_of_length_le (by omega)]

theorem skEq_append_rec (t : Topo) (r : Nat × Nat × Nat × Nat) : skEq t (append_rec t r) := by
  refine ⟨rfl, rfl, append_rec_channels_length t r, ?_⟩
  intro c
  by_cases hc : c = r.1
  · by_cases hlt : r.1 < t.channels.length
    · rw [hc, chanD_append_rec_self t r hlt]
      exact ⟨rfl, rfl⟩
    · rw [chanD_append_rec_oob t r c hlt]
      exact ⟨rfl, rfl⟩
  · rw [chanD_append_rec_ne t r c hc]
    exact ⟨rfl, rfl⟩

theorem foldl_append_rec_routes :
    ∀ (L : List (Nat × Nat × Nat × Nat)) (t : Topo) (c : Nat), c < t.channels.length →
      (chanD (L.foldl append_rec t) c).routes
        = (chanD t c).routes ++ (L.filter (fun r => decide (r.1 = c))).map (fun r => r.2) := by
  intro L
  induction L with
  | nil => intro t c hc; simp
  | cons r L ih =>
    intro t c hc
    rw [List.foldl_cons]
    rw [ih (append_rec t r) c (by rw [append_rec_channels_length]; exact hc)]
    by_cases hrc : r.1 = c
    · subst hrc
      by_cases hlt : r.1 < t.channels.length
      · rw [chanD_append_rec_self t r hlt]
        simp
      · exact absurd hc hlt
    · rw [chanD_append_rec_ne t r c (fun hc' => hrc hc'.symm)]
      simp [hrc]

/-- The records the full distribution run appends to channel `c` on behalf of
origin `o`. -/
def batch (t : Topo) (o c : Nat) : List (Nat × Nat × Nat) :=
  ((bfs_run t o).filter (fun r => decide (r.1 = c))).map (fun r => r.2)

theorem skEq_distribute_route (t t0 : Topo) (hsk : skEq t t0) (o : Nat) :
    skEq t (distribute_route t0 o) := by
  unfold distribute_route
  exact foldl_preserve (skEq t) append_rec _
    (fun t' r _ h' => skEq_trans h' (skEq_append_rec t' r)) t0 hsk

theorem distribute_route_routes (t : Topo) (o c : Nat) (hc : c < t.channels.length) :
    (chanD (distribute_route t o) c).routes = (chanD t c).routes ++ batch t o c := by
  unfold distribute_route batch
  exact foldl_append_rec_routes (bfs_run t o) t c hc

theorem foldl_distribute_routes :
    ∀ (L : List Nat) (t t0 : Topo), skEq t t0 → ∀ (c : Nat), c < t.channels.length →
      (chanD (L.foldl distribute_route t0) c).routes
        = (chanD t0 c).routes ++ (L.map (fun o => batch t o c)).flatten := by
  intro L
  induction L with
  | nil => intro t t0 hsk c hc; simp
  | cons o L ih =>
    intro t t0 hsk c hc
    rw [List.foldl_cons]
    rw [ih t (distribute_route t0 o) (skEq_distribute_route t t0 hsk o) c hc]
    rw [distribute_route_routes t0 o c (by rw [hsk.2.2.1]; exact hc)]
    have hb : batch t0 o c = batch t o c := by
      unfold batch
      rw [bfs_run_skEq hsk]
    rw [hb]
    simp

theorem skEq_distribute_routes (t : Topo) : skEq t (distribute_routes t) := by
  unfold distribute_routes
  exact foldl_preserve (skEq t) distribute_route _
    (fun t' o _ h' => skEq_distribute_route t t' h' o) t (skEq_refl t)

theorem distribute_routes_routes (t : Topo) (c : Nat) (hc : c < t.channels.length) :
    (chanD (distribute_routes t) c).routes
      = (chanD t c).routes
        ++ ((List.range t.channels.length).map (fun o => batch t o c)).flatten := by
  unfold distribute_routes
  exact foldl_distribute_routes (List.range t.channels.length) t t (skEq_refl t) c hc

/-- C10: after `distribute_routes()` on a freshly built topology, every stored
route record has distance at least 1, and no channel's list holds a record
whose origin is the channel itself. -/
theorem route_records_sound (t : Topo) (h : routes_empty t) (c : Nat) :
    ∀ r ∈ (chanD (distribute_routes t) c).routes, 1 ≤ r.2.2 ∧ r.1 ≠ c := by
  intro r hr
  by_cases hc : c < t.channels.length
  · rw [distribute_routes_routes t c hc, chanD_routes_empty t h c] at hr
    simp only [List.nil_append] at hr
    rw [List.mem_flatten] at hr
    obtain ⟨l, hl, hrl⟩ := hr
    rw [List.mem_map] at hl
    obtain ⟨o, ho, hlo⟩ := hl
    subst hlo
    unfold batch at hrl
    rw [List.mem_map] at hrl
    obtain ⟨r4, hr4, hres⟩ := hrl
    rw [List.mem_filter] at hr4
    obtain ⟨hr4mem, hr4c⟩ := hr4
    have hshape := bfs_run_shape t o r4 hr4mem
    have hnodup := bfs_run_nodup t o
    have hc4 : r4.1 = c := by simpa using hr4c
    constructor
    · rw [← hres]
      exact hshape.2.1
    · rw [← hres]
      show r4.2.1 ≠ c
      rw [hshape.1]
      intro heq
      have hmemc : c ∈ (bfs_run t o).map (fun r => r.1) :=
        hc4 ▸ List.mem_map_of_mem _ hr4mem
      rw [← heq] at hmemc
      exact (List.nodup_cons.1 hnodup).1 hmemc
  · have hlen : (distribute_routes t).channels.length = t.channels.length :=
      (skEq_distribute_routes t).2.2.1
    unfold chanD at hr
    rw [List.getD_eq_default _ _ (by omega)] at hr
    exact absurd hr (List.not_mem_nil r)

theorem route_records_sound_witness :
    (0, 2, 1) ∈ (chanD chainDist 1).routes ∧
    (1 ≤ ((0, 2, 1) : Nat × Nat × Nat).2.2 ∧ ((0, 2, 1) : Nat × Nat × Nat).1 ≠ 1) :=
  ⟨by decide, route_records_sound (apply_ops emptyTopo chainOps) (by decide) 1 (0, 2, 1)
    (by decide)⟩

/-! ### Idempotence of route distribution (claim C5) -/

/-- Lookup in the per-node route table. -/
def lookupR (acc : List (Nat × Nat × Nat × Nat)) (k : Nat) : Option (Nat × Nat × Nat) :=
  match acc with
  | [] => none
  | (k', v') :: rest => if k' = k then some v' else lookupR rest k

theorem lookupR_nil (k : Nat) : lookupR [] k = none := rfl

theorem lookupR_cons (k' : Nat) (v' : Nat × Nat × Nat) (rest : List (Nat × Nat × Nat × Nat))
    (k : Nat) : lookupR ((k', v') :: rest) k = if k' = k then some v' else lookupR rest k := rfl

theorem dictInsertMin_cons (k' : Nat) (v' : Nat × Nat × Nat)
    (rest : List (Nat × Nat × Nat × Nat)) (k : Nat) (v : Nat × Nat × Nat) :
    dictInsertMin ((k', v') :: rest) k v
      = if k' = k then (if v.2.2 < v'.2.2 then (k, v) :: rest else (k', v') :: rest)
        else (k', v') :: dictInsertMin rest k v := rfl

theorem dictInsertMin_lookup_self (acc : List (Nat × Nat × Nat × Nat)) (k : Nat)
    (v : Nat × Nat × Nat) :
    ∃ w, lookupR (dictInsertMin acc k v) k = some w ∧ w.2.2 ≤ v.2.2 := by
  induction acc with
  | nil =>
    refine ⟨v, ?_, Nat.le_refl _⟩
    show lookupR [(k, v)] k = some v
    rw [lookupR_cons, if_pos rfl]
  | cons e rest ih =>
    obtain ⟨k', v'⟩ := e
    rw [dictInsertMin_cons]
    by_cases hk : k' = k
    · rw [if_pos hk]
      by_cases hd : v.2.2 < v'.2.2
      · rw [if_pos hd]
        exact ⟨v, by rw [lookupR_cons, if_pos rfl], Nat.le_refl _⟩
      · rw [if_neg hd]
        exact ⟨v', by rw [lookupR_cons, if_pos hk], by omega⟩
    · rw [if_neg hk]
      obtain ⟨w, hw, hwle⟩ := ih
      exact ⟨w, by rw [lookupR_cons, if_neg hk]; exact hw, hwle⟩

theorem dictInsertMin_noop (acc : List (Nat × Nat × Nat × Nat)) (k : Nat)
    (v w : Nat × Nat × Nat) (hl : lookupR acc k = some w) (hle : w.2.2 ≤ v.2.2) :
    dictInsertMin acc k v = acc := by
  induction acc with
  | nil => exact absurd hl (by rw [lookupR_nil]; simp)
  | cons e rest ih =>
    obtain ⟨k', v'⟩ := e
    rw [dictInsertMin_cons]
    rw [lookupR_cons] at hl
    by_cases hk : k' = k
    · rw [if_pos hk]
      rw [if_pos hk] at hl
      have hv' : v' = w := Option.some.inj hl
      rw [if_neg (by rw [hv']; omega)]
    · rw [if_neg hk]
      rw [if_neg hk] at hl
      rw [ih hl]

theorem dictInsertMin_lookup_mono (acc : List (Nat × Nat × Nat × Nat)) (k k'' : Nat)
    (v w : Nat × Nat × Nat) (hl : lookupR acc k'' = some w) :
    ∃ w', lookupR (dictInsertMin acc k v) k'' = some w' ∧ w'.2.2 ≤ w.2.2 := by
  induction acc with
  | nil => exact absurd hl (by rw [lookupR_nil]; simp)
  | cons e rest ih =>
    obtain ⟨k', v'⟩ := e
    rw [dictInsertMin_cons]
    rw [lookupR_cons] at hl
    by_cases hk : k' = k
    · rw [if_pos hk]
      by_cases hd : v.2.2 < v'.2.2
      · rw [if_pos hd]
        by_cases hkk : k = k''
        · rw [if_pos (hk.trans hkk)] at hl
          have hv' : v' = w := Option.some.inj hl
          refine ⟨v, by rw [lookupR_cons, if_pos hkk], by rw [← hv']; omega⟩
        · rw [if_neg (fun hc => hkk (hk.symm ▸ hc))] at hl
          exact ⟨w, by rw [lookupR_cons, if_neg hkk]; exact hl, Nat.le_refl _⟩
      · rw [if_neg hd]
        exact ⟨w, hl ▸ by rw [lookupR_cons], Nat.le_refl _⟩
    · rw [if_neg hk]
      by_cases hkk : k' = k''
      · rw [if_pos hkk] at hl
        have hv' : v' = w := Option.some.inj hl
        exact ⟨v', by rw [lookupR_cons, if_pos hkk], by rw [hv']⟩
      · rw [if_neg hkk] at hl
        obtain ⟨w', hw', hwle⟩ := ih hl
        exact ⟨w', by rw [lookupR_cons, if_neg hkk]; exact hw', hwle⟩

theorem chunk_fold_establish (i : Nat) (R : List (Nat × Nat × Nat))
    (acc : List (Nat × Nat × Nat × Nat)) :
    ∀ r ∈ R, ∃ w, lookupR (R.foldl
      (fun acc r => dictInsertMin acc r.1 (i, r.2.1, r.2.2)) acc) r.1 = some w ∧
      w.2.2 ≤ r.2.2 := by
  refine foldl_covers (fun acc r => dictInsertMin acc r.1 (i, r.2.1, r.2.2))
    (fun acc r => ∃ w, lookupR acc r.1 = some w ∧ w.2.2 ≤ r.2.2) ?_ ?_ R acc
  · intro st r
    exact dictInsertMin_lookup_self st r.1 (i, r.2.1, r.2.2)
  · intro st x y hy
    obtain ⟨w, hw, hwle⟩ := hy
    obtain ⟨w', hw', hwle'⟩ := dictInsertMin_lookup_mono st x.1 y.1 (i, x.2.1, x.2.2) w hw
    exact ⟨w', hw', Nat.le_trans hwle' hwle⟩

theorem chunk_fold_noop (i : Nat) :
    ∀ (M : List (Nat × Nat × Nat)) (acc : List (Nat × Nat × Nat × Nat)),
      (∀ b ∈ M, ∃ w, lookupR acc b.1 = some w ∧ w.2.2 ≤ b.2.2) →
      M.foldl (fun acc r => dictInsertMin acc r.1 (i, r.2.1, r.2.2)) acc = acc := by
  intro M
  induction M with
  | nil => intro acc _; rfl
  | cons b M ih =>
    intro acc h
    rw [List.foldl_cons]
    obtain ⟨w, hw, hwle⟩ := h b (List.mem_cons_self _ _)
    rw [dictInsertMin_noop acc b.1 (i, b.2.1, b.2.2) w hw hwle]
    exact ih acc (fun b' hb' => h b' (List.mem_cons_of_mem _ hb'))

theorem chunk_fold_append_noop (i : Nat) (R B : List (Nat × Nat × Nat))
    (hB : ∀ b ∈ B, b ∈ R) (acc : List (Nat × Nat × Nat × Nat)) :
    (R ++ B).foldl (fun acc r => dictInsertMin acc r.1 (i, r.2.1, r.2.2)) acc
      = R.foldl (fun acc r => dictInsertMin acc r.1 (i, r.2.1, r.2.2)) acc := by
  rw [List.foldl_append]
  exact chunk_fold_noop i B _ (fun b hb => chunk_fold_establish i R acc b (hB b hb))

theorem get_routes_distribute_again (t : Topo) (n : Nat) :
    get_routes (distribute_routes (distribute_routes t)) n
      = get_routes (distribute_routes t) n := by
  have hsk : skEq (distribute_routes t) (distribute_routes (distribute_routes t)) :=
    skEq_distribute_routes (distribute_routes t)
  have hsk0 : skEq t (distribute_routes t) := skEq_distribute_routes t
  unfold get_routes
  rw [nodeD_skEq hsk]
  have key : ∀ (l : List Nat) (acc : List (Nat × Nat × Nat × Nat)),
      List.foldl (fun acc i =>
        ((chanD (distribute_routes (distribute_routes t))
          (ifaceD (distribute_routes (distribute_routes t)) i).channel).routes).foldl
          (fun acc r => dictInsertMin acc r.1 (i, r.2.1, r.2.2)) acc) acc l
      = List.foldl (fun acc i =>
        ((chanD (distribute_routes t) (ifaceD (distribute_routes t) i).channel).routes).foldl
          (fun acc r => dictInsertMin acc r.1 (i, r.2.1, r.2.2)) acc) acc l := by
    intro l
    induction l with
    | nil => intro acc; rfl
    | cons i l ih =>
      intro acc
      rw [List.foldl_cons, List.foldl_cons, ifaceD_skEq hsk]
      have hdecomp : ∃ B, (chanD (distribute_routes (distribute_routes t))
            (ifaceD (distribute_routes t) i).channel).routes
          = (chanD (distribute_routes t) (ifaceD (distribute_routes t) i).channel).routes ++ B ∧
          ∀ b ∈ B, b ∈ (chanD (distribute_routes t)
            (ifaceD (distribute_routes t) i).channel).routes := by
        by_cases hc : (ifaceD (distribute_routes t) i).channel
            < (distribute_routes t).channels.length
        · refine ⟨((List.range (distribute_routes t).channels.length).map
            (fun o => batch (distribute_routes t) o
              ((ifaceD (distribute_routes t) i).channel))).flatten, ?_, ?_⟩
          · exact distribute_routes_routes (distribute_routes t) _ hc
          · intro b hb
            have hlen : (distribute_routes t).channels.length = t.channels.length := hsk0.2.2.1
            have hbatch : ∀ o, batch (distribute_routes t) o
                ((ifaceD (distribute_routes t) i).channel)
                = batch t o ((ifaceD (distribute_routes t) i).channel) := by
              intro o
              unfold batch
              rw [bfs_run_skEq hsk0]
            have hroutes := distribute_routes_routes t
              ((ifaceD (distribute_routes t) i).channel) (by omega)
            rw [hroutes]
            refine List.mem_append_right _ ?_
            rw [List.mem_flatten] at hb ⊢
            obtain ⟨ll, hll, hbll⟩ := hb
            rw [List.mem_map] at hll
            obtain ⟨o, ho, hlo⟩ := hll
            refine ⟨ll, ?_, hbll⟩
            rw [List.mem_map]
            refine ⟨o, by rw [← hlen]; exact ho, ?_⟩
            rw [← hlo, hbatch o]
        · refine ⟨[], ?_, by intro b hb; simp at hb⟩
          rw [List.append_nil]
          have h2 : (chanD (distribute_routes (distribute_routes t))
              (ifaceD (distribute_routes t) i).channel) = default := by
            unfold chanD
            rw [List.getD_eq_default]
            rw [hsk.2.2.1]
            omega
          have h1 : (chanD (distribute_routes t)
              (ifaceD (distribute_routes t) i).channel) = default := by
            unfold chanD
            rw [List.getD_eq_default]
            omega
          rw [h1, h2]
      obtain ⟨B, hB1, hB2⟩ := hdecomp
      rw [hB1, chunk_fold_append_noop i _ B hB2 acc]
      exact ih _
  exact key _ []

theorem get_simplified_distribute_again (t : Topo) (n : Nat) :
    get_simplified_routes (distribute_routes (distribute_routes t)) n
      = get_simplified_routes (distribute_routes t) n := by
  have hsk : skEq (distribute_routes t) (distribute_routes (distribute_routes t)) :=
    skEq_distribute_routes (distribute_routes t)
  unfold get_simplified_routes
  rw [get_routes_distribute_again]
  have hmap : ∀ e ∈ get_routes (distribute_routes t) n,
      ((chanD (distribute_routes (distribute_routes t)) e.1).network, e.2)
        = ((chanD (distribute_routes t) e.1).network, e.2) := by
    intro e _
    rw [(hsk.2.2.2 e.1).2]
  rw [List.map_congr_left hmap]

theorem dump_routes_distribute_again (t : Topo) (n : Nat) :
    dump_routes (distribute_routes (distribute_routes t)) n
      = dump_routes (distribute_routes t) n := by
  have hsk : skEq (distribute_routes t) (distribute_routes (distribute_routes t)) :=
    skEq_distribute_routes (distribute_routes t)
  unfold dump_routes emitted_routes
  rw [get_simplified_distribute_again]
  have hfun : (fun (e : IPv4Net × Nat × Nat × Nat) =>
      (get_ip (distribute_routes (distribute_routes t)) e.2.2.1).map
        (fun a => (e.1, a.1, e.2.2.2)))
      = (fun e => (get_ip (distribute_routes t) e.2.2.1).map (fun a => (e.1, a.1, e.2.2.2))) := by
    funext e
    have hip : get_ip (distribute_routes (distribute_routes t)) e.2.2.1
        = get_ip (distribute_routes t) e.2.2.1 := by
      simp only [get_ip]
      rw [ifaceD_skEq hsk, (hsk.2.2.2 _).2]
    rw [hip]
  rw [hfun]

/-- C5: running `distribute_routes()` a second time on an unchanged graph
leaves every node's derived route snapshot — resolved table, aggregated table
and dumped route list — identical: the duplicate records it appends all lose
against (or tie with) the already-stored first-run records. -/
theorem distribute_routes_idempotent (t : Topo) (n : Nat) :
    get_routes (distribute_routes (distribute_routes t)) n
      = get_routes (distribute_routes t) n ∧
    get_simplified_routes (distribute_routes (distribute_routes t)) n
      = get_simplified_routes (distribute_routes t) n ∧
    dump_routes (distribute_routes (distribute_routes t)) n
      = dump_routes (distribute_routes t) n :=
  ⟨get_routes_distribute_again t n, get_simplified_distribute_again t n,
    dump_routes_distribute_again t n⟩

/-! ### Local-exclusion machinery (claim C2): resolved-table provenance -/

theorem dictInsertMin_lookup_ne (acc : List (Nat × Nat × Nat × Nat)) (k0 : Nat)
    (v0 : Nat × Nat × Nat) (k : Nat) (hk : k ≠ k0) :
    lookupR (dictInsertMin acc k0 v0) k = lookupR acc k := by
  induction acc with
  | nil =>
    show lookupR [(k0, v0)] k = lookupR [] k
    rw [lookupR_cons, if_neg (fun hc => hk hc.symm)]
  | cons e rest ih =>
    obtain ⟨k', v'⟩ := e
    rw [dictInsertMin_cons]
    by_cases hk' : k' = k0
    · rw [if_pos hk']
      by_cases hd : v0.2.2 < v'.2.2
      · rw [if_pos hd, lookupR_cons, lookupR_cons,
          if_neg (fun hc => hk hc.symm), if_neg (fun hc => hk (hk'.symm.trans hc).symm)]
      · rw [if_neg hd]
    · rw [if_neg hk', lookupR_cons, lookupR_cons]
      by_cases hkk : k' = k
      · rw [if_pos hkk, if_pos hkk]
      · rw [if_neg hkk, if_neg hkk, ih]

theorem dictInsertMin_lookup_none (acc : List (Nat × Nat × Nat × Nat)) (k0 : Nat)
    (v0 : Nat × Nat × Nat) (h : lookupR acc k0 = none) :
    lookupR (dictInsertMin acc k0 v0) k0 = some v0 := by
  induction acc with
  | nil =>
    show lookupR [(k0, v0)] k0 = some v0
    rw [lookupR_cons, if_pos rfl]
  | cons e rest ih =>
    obtain ⟨k', v'⟩ := e
    rw [lookupR_cons] at h
    rw [dictInsertMin_cons]
    by_cases hk' : k' = k0
    · rw [if_pos hk'] at h
      exact Option.noConfusion h
    · rw [if_neg hk'] at h
      rw [if_neg hk', lookupR_cons, if_neg hk']
      exact ih h

theorem dictInsertMin_lookup_some (acc : List (Nat × Nat × Nat × Nat)) (k0 : Nat)
    (v0 w : Nat × Nat × Nat) (h : lookupR acc k0 = some w) :
    lookupR (dictInsertMin acc k0 v0) k0
      = some (if v0.2.2 < w.2.2 then v0 else w) := by
  induction acc with
  | nil =>
    rw [lookupR_nil] at h
    exact Option.noConfusion h
  | cons e rest ih =>
    obtain ⟨k', v'⟩ := e
    rw [lookupR_cons] at h
    rw [dictInsertMin_cons]
    by_cases hk' : k' = k0
    · rw [if_pos hk'] at h
      have hv' : v' = w := Option.some.inj h
      rw [if_pos hk']
      by_cases hd : v0.2.2 < v'.2.2
      · rw [if_pos hd, lookupR_cons, if_pos rfl, if_pos (show v0.2.2 < w.2.2 by rw [← hv']; exact hd)]
      · rw [if_neg hd, lookupR_cons, if_pos hk', hv', if_neg (by rw [← hv']; exact hd)]
    · rw [if_neg hk'] at h
      rw [if_neg hk', lookupR_cons, if_neg hk']
      exact ih h

theorem dict_fold_provenance (E : List (Nat × Nat × Nat × Nat)) :
    ∀ k v, lookupR (E.foldl (fun acc e => dictInsertMin acc e.1 e.2) []) k = some v →
      (k, v) ∈ E := by
  refine foldl_preserve
    (fun acc => ∀ k v, lookupR acc k = some v → (k, v) ∈ E)
    (fun acc e => dictInsertMin acc e.1 e.2) E ?_ [] ?_
  · intro acc e he hacc k v hl
    by_cases hk : k = e.1
    · rw [hk] at hl ⊢
      cases hle : lookupR acc e.1 with
      | none =>
        rw [dictInsertMin_lookup_none acc e.1 e.2 hle] at hl
        have hv : e.2 = v := Option.some.inj hl
        rw [← hv]
        exact he
      | some w =>
        rw [dictInsertMin_lookup_some acc e.1 e.2 w hle] at hl
        have hv := Option.some.inj hl
        by_cases hd : e.2.2.2 < w.2.2
        · rw [if_pos hd] at hv
          rw [← hv]
          exact he
        · rw [if_neg hd] at hv
          rw [← hv]
          exact hacc e.1 w hle
    · rw [dictInsertMin_lookup_ne acc e.1 e.2 k hk] at hl
      exact hacc k v hl
  · intro k v hl
    rw [lookupR_nil] at hl
    exact Option.noConfusion hl

theorem dictInsertMin_keys (acc : List (Nat × Nat × Nat × Nat)) (k : Nat)
    (v : Nat × Nat × Nat) :
    (dictInsertMin acc k v).map (fun e => e.1) =
      if k ∈ acc.map (fun e => e.1) then acc.map (fun e => e.1)
      else acc.map (fun e => e.1) ++ [k] := by
  induction acc with
  | nil => simp [dictInsertMin]
  | cons e rest ih =>
    obtain ⟨k', v'⟩ := e
    rw [dictInsertMin_cons]
    by_cases hk : k' = k
    · rw [if_pos hk]
      have hmem : k ∈ ((k', v') :: rest).map (fun e => e.1) := by
        simp [hk.symm]
      rw [if_pos hmem]
      by_cases hd : v.2.2 < v'.2.2
      · rw [if_pos hd]
        simp [hk]
      · rw [if_neg hd]
    · rw [if_neg hk]
      by_cases hmem : k ∈ rest.map (fun e => e.1)
      · have hmem' : k ∈ ((k', v') :: rest).map (fun e => e.1) := by
          simp only [List.map_cons, List.mem_cons]
          exact Or.inr hmem
        rw [if_pos hmem']
        simp only [List.map_cons]
        rw [ih, if_pos hmem]
      · have hmem' : k ∉ ((k', v') :: rest).map (fun e => e.1) := by
          simp only [List.map_cons, List.mem_cons]
          intro hc
          rcases hc with hc | hc
          · exact hk hc.symm
          · exact hmem hc
        rw [if_neg hmem']
        simp only [List.map_cons]
        rw [ih, if_neg hmem, List.cons_append]

theorem dict_fold_keys_nodup (E : List (Nat × Nat × Nat × Nat)) :
    ((E.foldl (fun acc e => dictInsertMin acc e.1 e.2) []).map (fun e => e.1)).Nodup := by
  refine foldl_preserve (fun acc => (acc.map (fun e => e.1)).Nodup)
    (fun acc e => dictInsertMin acc e.1 e.2) E ?_ [] (by simp)
  intro acc e _ hacc
  rw [dictInsertMin_keys]
  by_cases hmem : e.1 ∈ acc.map (fun e => e.1)
  · rw [if_pos hmem]
    exact hacc
  · rw [if_neg hmem]
    simp [List.nodup_append, hacc, hmem]

theorem lookupR_of_mem (acc : List (Nat × Nat × Nat × Nat))
    (hnd : (acc.map (fun e => e.1)).Nodup) (k : Nat) (v : Nat × Nat × Nat)
    (hm : (k, v) ∈ acc) : lookupR acc k = some v := by
  induction acc with
  | nil => simp at hm
  | cons e rest ih =>
    obtain ⟨k', v'⟩ := e
    rw [lookupR_cons]
    simp only [List.map_cons, List.nodup_cons] at hnd
    rcases List.mem_cons.1 hm with hm1 | hm2
    · have hk : k = k' := congrArg Prod.fst hm1
      have hv : v = v' := congrArg Prod.snd hm1
      rw [if_pos hk.symm, hv]
    · by_cases hk : k' = k
      · exfalso
        have hkm : k ∈ rest.map (fun e => e.1) := by
          rw [List.mem_map]
          exact ⟨(k, v), hm2, rfl⟩
        rw [← hk] at hkm
        exact hnd.1 hkm
      · rw [if_neg hk]
        exact ih hnd.2 hm2

/-- The interface-annotated encounter list `Node.get_routes` folds over:
`(destination, (interface, gateway, distance))` in iteration order. -/
def encList (t : Topo) (il : List Nat) : List (Nat × Nat × Nat × Nat) :=
  il.flatMap (fun i => ((chanD t (ifaceD t i).channel).routes).map
    (fun r => (r.1, i, r.2.1, r.2.2)))

theorem foldl_flatMap_nested {α β γ : Type} (f : β → List γ) (g : α → γ → α) :
    ∀ (l : List β) (a : α),
      (l.flatMap f).foldl g a = l.foldl (fun acc b => (f b).foldl g acc) a := by
  intro l
  induction l with
  | nil => intro a; rfl
  | cons x xs ih =>
    intro a
    rw [List.flatMap_cons, List.foldl_append, List.foldl_cons, ih]

theorem get_routes_eq_encFold (t : Topo) (n : Nat) :
    get_routes t n = (encList t (nodeD t n).interfaces).foldl
      (fun acc e => dictInsertMin acc e.1 e.2) [] := by
  unfold get_routes encList
  rw [foldl_flatMap_nested]
  congr 1
  funext acc i
  rw [List.foldl_map]

theorem mem_encList (t : Topo) (il : List Nat) (e : Nat × Nat × Nat × Nat)
    (h : e ∈ encList t il) :
    ∃ i ∈ il, ∃ r ∈ (chanD t (ifaceD t i).channel).routes,
      e = (r.1, i, r.2.1, r.2.2) := by
  unfold encList at h
  rw [List.mem_flatMap] at h
  obtain ⟨i, hi, hmem⟩ := h
  rw [List.mem_map] at hmem
  obtain ⟨r, hr, hre⟩ := hmem
  exact ⟨i, hi, r, hr, hre.symm⟩

theorem routes_mem_bfs (t : Topo) (hempty : routes_empty t) (c : Nat)
    (hc : c < t.channels.length) (r : Nat × Nat × Nat)
    (hr : r ∈ (chanD (distribute_routes t) c).routes) :
    r.1 < t.channels.length ∧ (c, r) ∈ bfs_run t r.1 := by
  rw [distribute_routes_routes t c hc, chanD_routes_empty t hempty c] at hr
  simp only [List.nil_append, List.mem_flatten] at hr
  obtain ⟨l, hl, hrl⟩ := hr
  rw [List.mem_map] at hl
  obtain ⟨o, ho, hlo⟩ := hl
  subst hlo
  unfold batch at hrl
  rw [List.mem_map] at hrl
  obtain ⟨r4, hr4, hres⟩ := hrl
  rw [List.mem_filter] at hr4
  obtain ⟨hmem, hfst⟩ := hr4
  have hc4 : r4.1 = c := by simpa using hfst
  have hshape := bfs_run_shape t o r4 hmem
  have hro : r.1 = o := by
    rw [← hres]
    exact hshape.1
  constructor
  · rw [hro]
    exact List.mem_range.1 ho
  · rw [hro]
    have heq : (c, r) = r4 := by
      rw [← hc4, ← hres]
    rw [heq]
    exact hmem

theorem bfs_mem_routes (t : Topo) (hempty : routes_empty t) (o : Nat)
    (ho : o < t.channels.length) (c : Nat) (hc : c < t.channels.length)
    (rec : Nat × Nat × Nat) (h : (c, rec) ∈ bfs_run t o) :
    rec ∈ (chanD (distribute_routes t) c).routes := by
  rw [distribute_routes_routes t c hc, chanD_routes_empty t hempty c]
  simp only [List.nil_append, List.mem_flatten]
  refine ⟨batch t o c, ?_, ?_⟩
  · rw [List.mem_map]
    exact ⟨o, List.mem_range.2 ho, rfl⟩
  · unfold batch
    rw [List.mem_map]
    refine ⟨(c, rec), ?_, rfl⟩
    rw [List.mem_filter]
    exact ⟨h, by simp⟩

theorem routes_origin_unique (t : Topo) (hempty : routes_empty t) (c : Nat)
    (hc : c < t.channels.length) (r r' : Nat × Nat × Nat)
    (hr : r ∈ (chanD (distribute_routes t) c).routes)
    (hr' : r' ∈ (chanD (distribute_routes t) c).routes) (ho : r.1 = r'.1) : r = r' := by
  obtain ⟨hb1, hm1⟩ := routes_mem_bfs t hempty c hc r hr
  obtain ⟨hb2, hm2⟩ := routes_mem_bfs t hempty c hc r' hr'
  rw [ho] at hm1
  have hnd : ((bfs_run t r'.1).map (fun x => x.1)).Nodup :=
    (List.nodup_cons.1 (bfs_run_nodup t r'.1)).2
  have := mem_eq_of_nodup_map_fst (bfs_run t r'.1) hnd (c, r) hm1 (c, r') hm2 rfl
  exact congrArg Prod.snd this

/-- Every channel adjacent to the origin through a shared node receives a
distance-1 record whose gateway interface belongs to a node on the origin
channel. -/
theorem bfs_run_first_exists (t : Topo) (o : Nat) (ho : o < t.channels.length)
    (i : Nat) (hi : i ∈ (chanD t o).interfaces)
    (j : Nat) (hj : j ∈ (nodeD t (ifaceD t i).node).interfaces)
    (hne : (ifaceD t j).channel ≠ o) :
    ∃ g, ((ifaceD t j).channel, o, g, 1) ∈ bfs_run t o ∧
      (ifaceD t g).channel = (ifaceD t j).channel ∧
      ∃ i' ∈ (chanD t o).interfaces, g ∈ (nodeD t (ifaceD t i').node).interfaces := by
  cases hlen : t.channels.length with
  | zero => omega
  | succ f =>
    have hrun : bfs_run t o = bfs_loop t o f (step_channel t o ⟨[o], [], []⟩ o 0) := by
      unfold bfs_run
      rw [hlen]
      rfl
    have hst1 : knownRecsInv o (step_channel t o ⟨[o], [], []⟩ o 0) :=
      step_channel_inv t o ⟨[o], [], []⟩ o 0 (by constructor <;> simp)
    have hcov := step_channel_covers t o 0 ⟨[o], [], []⟩ o i hi j hj
    rw [hst1.1] at hcov
    rcases List.mem_cons.1 hcov with hcov | hcov
    · exact absurd hcov hne
    · rw [List.mem_map] at hcov
      obtain ⟨r4, hr4, hr4c⟩ := hcov
      have hfirst := step_channel_first t o ⟨[o], [], []⟩ (by intro r hr; simp at hr) r4 hr4
      have hch : r4.1 = (ifaceD t r4.2.2.1).channel := congrArg Prod.fst hfirst.1
      refine ⟨r4.2.2.1, ?_, ?_, hfirst.2⟩
      · have heq : r4 = ((ifaceD t j).channel, o, r4.2.2.1, 1) := by
          rw [← hr4c, hch]
          exact hfirst.1
        rw [← heq, hrun]
        exact bfs_loop_mono t o f _ r4 hr4
      · rw [← hch, hr4c]

/-! ### Aggregation provenance -/

theorem supernet_plen_le (n : IPv4Net) : (supernet n).plen ≤ n.plen := by
  unfold supernet
  by_cases h : n.plen = 0
  · rw [if_pos h]
  · rw [if_neg h]
    show n.plen - 1 ≤ n.plen
    omega

theorem supernet_plen_eq (n : IPv4Net) (h : (supernet n).plen = n.plen) : supernet n = n := by
  unfold supernet at h ⊢
  by_cases h0 : n.plen = 0
  · rw [if_pos h0]
  · rw [if_neg h0] at h
    exfalso
    have : n.plen - 1 = n.plen := h
    omega

theorem merge_tops_fuel_pres (P : IPv4Net × Nat × Nat × Nat → Prop)
    (hm : ∀ a, P a → P (supernet a.1, a.2)) :
    ∀ (fuel : Nat) (l : List (IPv4Net × Nat × Nat × Nat)), (∀ x ∈ l, P x) →
      ∀ x ∈ merge_tops_fuel fuel l, P x := by
  intro fuel
  induction fuel with
  | zero => intro l h; exact h
  | succ f ih =>
    intro l h
    match l with
    | [] => exact h
    | [a] => exact h
    | a :: b :: rest =>
      show ∀ x ∈ (if supernet a.1 = supernet b.1 ∧ a.2.2.1 = b.2.2.1 then
        merge_tops_fuel f ((supernet a.1, a.2) :: rest) else a :: b :: rest), P x
      by_cases hc : supernet a.1 = supernet b.1 ∧ a.2.2.1 = b.2.2.1
      · rw [if_pos hc]
        refine ih _ ?_
        intro x hx
        rcases List.mem_cons.1 hx with hx | hx
        · rw [hx]
          exact hm a (h a (List.mem_cons_self _ _))
        · exact h x (List.mem_cons_of_mem _ (List.mem_cons_of_mem _ hx))
      · rw [if_neg hc]
        exact h

theorem merge_tops_pres (P : IPv4Net × Nat × Nat × Nat → Prop)
    (hm : ∀ a, P a → P (supernet a.1, a.2))
    (l : List (IPv4Net × Nat × Nat × Nat)) (h : ∀ x ∈ l, P x) :
    ∀ x ∈ merge_tops l, P x :=
  merge_tops_fuel_pres P hm l.length l h

/-- Every aggregated entry stems from some input entry whose network has at
least its prefix length; when the lengths agree the entry is that input
itself. -/
def originIn (l : List (IPv4Net × Nat × Nat × Nat)) (e : IPv4Net × Nat × Nat × Nat) : Prop :=
  ∃ a ∈ l, e.1.plen ≤ a.1.plen ∧ (e.1.plen = a.1.plen → e = a)

theorem originIn_merge (l : List (IPv4Net × Nat × Nat × Nat)) :
    ∀ a, originIn l a → originIn l (supernet a.1, a.2) := by
  intro a ha
  obtain ⟨A, hA, hple, heq⟩ := ha
  refine ⟨A, hA, Nat.le_trans (supernet_plen_le a.1) hple, ?_⟩
  intro hpeq
  have hpeq' : (supernet a.1).plen = A.1.plen := hpeq
  have h1 : (supernet a.1).plen = a.1.plen := by
    have h3 := supernet_plen_le a.1
    omega
  have h2 : supernet a.1 = a.1 := supernet_plen_eq a.1 h1
  show ((supernet a.1, a.2) : IPv4Net × Nat × Nat × Nat) = A
  rw [h2]
  exact heq (by omega)

theorem agg_fold_origin (l : List (IPv4Net × Nat × Nat × Nat)) :
    ∀ e ∈ agg_fold l, originIn l e := by
  unfold agg_fold
  intro e he
  rw [List.mem_reverse] at he
  refine foldl_preserve (fun st => ∀ x ∈ st, originIn l x) agg_step l ?_ [] (by simp) e he
  intro st x hx hst
  unfold agg_step
  refine merge_tops_pres (originIn l) (originIn_merge l) (x :: st) ?_
  intro y hy
  rcases List.mem_cons.1 hy with hy | hy
  · rw [hy]
    exact ⟨x, hx, Nat.le_refl _, fun _ => rfl⟩
  · exact hst y hy

theorem dict_put_subset (k : IPv4Net) (v : Nat × Nat × Nat) :
    ∀ (acc : List (IPv4Net × Nat × Nat × Nat)), ∀ e ∈ dict_put acc k v,
      e ∈ acc ∨ e = (k, v) := by
  intro acc
  induction acc with
  | nil =>
    intro e he
    have hput : dict_put [] k v = [(k, v)] := rfl
    rw [hput] at he
    exact Or.inr (List.mem_singleton.1 he)
  | cons x rest ih =>
    obtain ⟨k', v'⟩ := x
    intro e he
    have hput : dict_put ((k', v') :: rest) k v
        = if k' = k then (k, v) :: rest else (k', v') :: dict_put rest k v := rfl
    rw [hput] at he
    by_cases hk : k' = k
    · rw [if_pos hk] at he
      rcases List.mem_cons.1 he with he | he
      · exact Or.inr he
      · exact Or.inl (List.mem_cons_of_mem _ he)
    · rw [if_neg hk] at he
      rcases List.mem_cons.1 he with he | he
      · exact Or.inl (he ▸ List.mem_cons_self _ _)
      · rcases ih e he with h | h
        · exact Or.inl (List.mem_cons_of_mem _ h)
        · exact Or.inr h

theorem dict_of_pairs_subset (l : List (IPv4Net × Nat × Nat × Nat)) :
    ∀ e ∈ dict_of_pairs l, e ∈ l := by
  unfold dict_of_pairs
  refine foldl_preserve (fun acc => ∀ e ∈ acc, e ∈ l)
    (fun acc e => dict_put acc e.1 e.2) l ?_ [] (by simp)
  intro acc x hx hacc e he
  rcases dict_put_subset x.1 x.2 acc e he with h | h
  · exact hacc e h
  · rw [h]
    exact hx

theorem mapM_option_mem {α β : Type} (f : α → Option β) :
    ∀ (l : List α) (l' : List β), l.mapM f = some l' → ∀ y ∈ l', ∃ x ∈ l, f x = some y := by
  intro l
  induction l with
  | nil =>
    intro l' h y hy
    rw [List.mapM_nil] at h
    have : l' = [] := (Option.some.inj h).symm
    rw [this] at hy
    simp at hy
  | cons x xs ih =>
    intro l' h y hy
    rw [List.mapM_cons] at h
    cases hfx : f x with
    | none => rw [hfx] at h; simp at h
    | some b =>
      rw [hfx] at h
      cases hxs : xs.mapM f with
      | none => rw [hxs] at h; simp at h
      | some bs =>
        rw [hxs] at h
        simp at h
        rw [← h] at hy
        rcases List.mem_cons.1 hy with hy | hy
        · exact ⟨x, List.mem_cons_self _ _, by rw [hfx, hy]⟩
        · obtain ⟨x', hx', hfx'⟩ := ih bs hxs y hy
          exact ⟨x', List.mem_cons_of_mem _ hx', hfx'⟩

/-! ### Well-formedness of the object graph -/

/-- The cross-references the Python constructors maintain: interface fields in
range, node and channel membership lists consistent with the back-pointers. -/
def wfTopo (t : Topo) : Prop :=
  (∀ i, i < t.ifaces.length →
    (ifaceD t i).node < t.nodes.length ∧ (ifaceD t i).channel < t.channels.length ∧
    i ∈ (nodeD t (ifaceD t i).node).interfaces ∧
    i ∈ (chanD t (ifaceD t i).channel).interfaces) ∧
  (∀ n, n < t.nodes.length → ∀ i ∈ (nodeD t n).interfaces,
    i < t.ifaces.length ∧ (ifaceD t i).node = n) ∧
  (∀ c, c < t.channels.length → ∀ i ∈ (chanD t c).interfaces,
    i < t.ifaces.length ∧ (ifaceD t i).channel = c)

instance (t : Topo) : Decidable (wfTopo t) := by
  unfold wfTopo; infer_instance

/-- No two distinct channels share more than one node (rules out parallel
channels between the same node pair and multi-way shared segments). -/
def sharedNodesUnique (t : Topo) : Prop :=
  ∀ c, c < t.channels.length → ∀ c', c' < t.channels.length → c ≠ c' →
    ∀ i1, i1 ∈ (chanD t c).interfaces → ∀ j1, j1 ∈ (chanD t c').interfaces →
      (ifaceD t i1).node = (ifaceD t j1).node →
    ∀ i2, i2 ∈ (chanD t c).interfaces → ∀ j2, j2 ∈ (chanD t c').interfaces →
      (ifaceD t i2).node = (ifaceD t j2).node →
    (ifaceD t i1).node = (ifaceD t i2).node

instance (t : Topo) : Decidable (sharedNodesUnique t) := by
  unfold sharedNodesUnique; infer_instance

/-- No node attaches twice to the same channel. -/
def oneIfacePerChannel (t : Topo) : Prop :=
  ∀ n, n < t.nodes.length → ∀ i ∈ (nodeD t n).interfaces, ∀ j ∈ (nodeD t n).interfaces,
    (ifaceD t i).channel = (ifaceD t j).channel → i = j

instance (t : Topo) : Decidable (oneIfacePerChannel t) := by
  unfold oneIfacePerChannel; infer_instance

theorem get_routes_mem_facts (t : Topo) (hwf : wfTopo t) (hempty : routes_empty t)
    (n : Nat) (hn : n < t.nodes.length) (cw : Nat × Nat × Nat × Nat)
    (hm : cw ∈ get_routes (distribute_routes t) n) :
    cw.1 < t.channels.length ∧
    ∃ i ∈ (nodeD t n).interfaces,
      ∃ r ∈ (chanD (distribute_routes t) (ifaceD t i).channel).routes,
        r.1 = cw.1 ∧ cw.2 = (i, r.2.1, r.2.2) ∧ (ifaceD t i).channel < t.channels.length := by
  have hsk : skEq t (distribute_routes t) := skEq_distribute_routes t
  rw [get_routes_eq_encFold] at hm
  have hl : lookupR ((encList (distribute_routes t)
      (nodeD (distribute_routes t) n).interfaces).foldl
      (fun acc e => dictInsertMin acc e.1 e.2) []) cw.1 = some cw.2 :=
    lookupR_of_mem _ (dict_fold_keys_nodup _) cw.1 cw.2 hm
  have hprov := dict_fold_provenance _ cw.1 cw.2 hl
  obtain ⟨i, hi, r, hr, hre⟩ := mem_encList _ _ _ hprov
  have h1 : cw.1 = r.1 := congrArg Prod.fst hre
  have h2 : cw.2 = (i, r.2.1, r.2.2) := congrArg Prod.snd hre
  rw [nodeD_skEq hsk] at hi
  have hiw := hwf.2.1 n hn i hi
  have hch : (ifaceD t i).channel < t.channels.length := (hwf.1 i hiw.1).2.1
  rw [ifaceD_skEq hsk] at hr
  have hbfs := routes_mem_bfs t hempty _ hch r hr
  exact ⟨h1 ▸ hbfs.1, i, hi, r, hr, h1.symm, h2, hch⟩

/-- C2 (amended): in any well-formed topology whose channels pairwise share at
most one node, where no node attaches twice to one channel, and whose channel
networks are pairwise distinct blocks of one common prefix length, a node
directly attached to channel `X` never emits a route entry whose destination
is `X`'s own network - neither in the aggregated table nor in the dump.
(With parallel channels between one node pair the property fails.) -/
theorem local_exclusion_amended (t : Topo) (p : Nat)
    (hwf : wfTopo t) (hempty : routes_empty t)
    (hshare : sharedNodesUnique t) (honce : oneIfacePerChannel t)
    (hplen : ∀ c, c < t.channels.length → (chanD t c).network.plen = p)
    (hnets : ∀ c, c < t.channels.length → ∀ c', c' < t.channels.length → c ≠ c' →
      (chanD t c).network ≠ (chanD t c').network)
    (n X : Nat) (hn : n < t.nodes.length) (hX : X < t.channels.length)
    (hatt : ∃ i0 ∈ (nodeD t n).interfaces, (ifaceD t i0).channel = X) :
    (∀ e ∈ emitted_routes (distribute_routes t) n, e.1 ≠ (chanD t X).network) ∧
    (∀ l, dump_routes (distribute_routes t) n = some l →
      ∀ y ∈ l, y.1 ≠ (chanD t X).network) := by
  have hsk : skEq t (distribute_routes t) := skEq_distribute_routes t
  have hcore : ∀ e ∈ emitted_routes (distribute_routes t) n, e.1 ≠ (chanD t X).network := by
    intro e he hnet
    unfold emitted_routes at he
    rw [List.mem_filter] at he
    obtain ⟨hesimp, hefilt⟩ := he
    have hne : ¬ e.2.1 = e.2.2.1 := by simpa using hefilt
    unfold get_simplified_routes at hesimp
    have hagg := dict_of_pairs_subset _ e hesimp
    have horig := agg_fold_origin _ e hagg
    obtain ⟨a, hasort, haple, haeq⟩ := horig
    have hamap : a ∈ (get_routes (distribute_routes t) n).map
        (fun r => ((chanD (distribute_routes t) r.1).network, r.2)) :=
      (List.Perm.mem_iff (List.perm_insertionSort sortKeyLe _)).1 hasort
    rw [List.mem_map] at hamap
    obtain ⟨cw, hcwmem, hcwa⟩ := hamap
    obtain ⟨hkb, i, hi, r, hr, hrfst, hcw2, hch⟩ :=
      get_routes_mem_facts t hwf hempty n hn cw hcwmem
    have hanet : a.1 = (chanD t cw.1).network := by
      rw [← hcwa]
      exact (hsk.2.2.2 cw.1).2
    have heplen : e.1.plen = p := by
      rw [hnet]
      exact hplen X hX
    have haplen : a.1.plen = p := by
      rw [hanet]
      exact hplen cw.1 hkb
    have heqa : e = a := haeq (by omega)
    have hXnet : (chanD t cw.1).network = (chanD t X).network := by
      rw [← hanet, ← heqa]
      exact hnet
    have hcwX : cw.1 = X := by
      by_contra hne'
      exact hnets cw.1 hkb X hX hne' hXnet
    have hrfst' : r.1 = X := hrfst.trans hcwX
    by_cases hcX : (ifaceD t i).channel = X
    · rw [hcX] at hr
      obtain ⟨_, hm1⟩ := routes_mem_bfs t hempty X hX r hr
      rw [hrfst'] at hm1
      have hnd := bfs_run_nodup t X
      have hmemX : X ∈ (bfs_run t X).map (fun x => x.1) := by
        have := List.mem_map_of_mem (fun x => x.1) hm1
        exact this
      exact (List.nodup_cons.1 hnd).1 hmemX
    · obtain ⟨i0, hi0, hi0X⟩ := hatt
      have hi0w := hwf.2.1 n hn i0 hi0
      have hi0mem : i0 ∈ (chanD t X).interfaces := by
        have hmm := (hwf.1 i0 hi0w.1).2.2.2
        rw [hi0X] at hmm
        exact hmm
      have hnodei0 : (ifaceD t i0).node = n := hi0w.2
      have hex := bfs_run_first_exists t X hX i0 hi0mem i (by rw [hnodei0]; exact hi) hcX
      obtain ⟨g, hgrun, hgch, i', hi', hgi'⟩ := hex
      have hgrec : ((X, g, 1) : Nat × Nat × Nat)
          ∈ (chanD (distribute_routes t) (ifaceD t i).channel).routes :=
        bfs_mem_routes t hempty X hX _ hch (X, g, 1) hgrun
      have hXfst : r.1 = ((X, g, 1) : Nat × Nat × Nat).1 := hrfst'
      have huniq := routes_origin_unique t hempty _ hch r (X, g, 1) hr hgrec hXfst
      have hi'w := hwf.2.2 X hX i' hi'
      have hni' : (ifaceD t i').node < t.nodes.length := (hwf.1 i' hi'w.1).1
      have hgw := hwf.2.1 _ hni' g hgi'
      have hgmem : g ∈ (chanD t (ifaceD t i).channel).interfaces := by
        have hmm := (hwf.1 g hgw.1).2.2.2
        rw [hgch] at hmm
        exact hmm
      have hiw := hwf.2.1 n hn i hi
      have himem : i ∈ (chanD t (ifaceD t i).channel).interfaces := (hwf.1 i hiw.1).2.2.2
      have hshared := hshare X hX (ifaceD t i).channel hch (fun hc => hcX hc.symm)
        i' hi' g hgmem hgw.2.symm i0 hi0mem i himem (by rw [hnodei0, hiw.2])
      have hgnode : (ifaceD t g).node = n := by
        rw [hgw.2, hshared, hnodei0]
      have hgn : g ∈ (nodeD t n).interfaces := by
        have hmm := (hwf.1 g hgw.1).2.2.1
        rw [hgnode] at hmm
        exact hmm
      have hgi : g = i := honce n hn g hgn i hi hgch
      apply hne
      rw [heqa, ← hcwa]
      show cw.2.1 = cw.2.2.1
      rw [hcw2]
      show i = r.2.1
      rw [huniq]
      show i = g
      exact hgi.symm
  refine ⟨hcore, ?_⟩
  intro l hl y hy
  unfold dump_routes at hl
  obtain ⟨x, hx, hfx⟩ := mapM_option_mem _ _ l hl y hy
  have hy1 : y.1 = x.1 := by
    cases hgi : get_ip (distribute_routes t) x.2.2.1 with
    | none =>
      rw [hgi] at hfx
      simp at hfx
    | some av =>
      rw [hgi] at hfx
      simp at hfx
      rw [← hfx]
  rw [hy1]
  exact hcore x hx

theorem local_exclusion_amended_witness :
    ((⟨167772164, 30⟩, 0, 1, 1) : IPv4Net × Nat × Nat × Nat) ∈ emitted_routes roundTripDist 0 ∧
    ((⟨167772164, 30⟩, 0, 1, 1) : IPv4Net × Nat × Nat × Nat).1 ≠ (chanD roundTripTopo 0).network :=
  ⟨by decide,
    (local_exclusion_amended roundTripTopo 30 (by decide) (by decide) (by decide) (by decide)
      (by decide) (by decide) 0 0 (by decide) (by decide) (by decide)).1 _ (by decide)⟩

/-! ### Aggregation: order and range arithmetic on sort keys -/

instance : IsTotal (IPv4Net × Nat × Nat × Nat) sortKeyLe := ⟨by
  intro a b
  unfold sortKeyLe netKeyLe
  omega⟩

instance : IsTrans (IPv4Net × Nat × Nat × Nat) sortKeyLe := ⟨by
  intro a b c hab hbc
  unfold sortKeyLe netKeyLe at hab hbc ⊢
  omega⟩

theorem netKeyLt_irrefl (a : IPv4Net) : ¬ netKeyLt a a := by
  unfold netKeyLt
  omega

theorem netKeyLt_antisym {a b : IPv4Net} (h1 : netKeyLt a b) (h2 : netKeyLt b a) : False := by
  unfold netKeyLt at h1 h2
  omega

theorem netKeyLt_of_le_ne {a b : IPv4Net} (hle : netKeyLe a b) (hne : a ≠ b) :
    netKeyLt a b := by
  unfold netKeyLe at hle
  unfold netKeyLt
  rcases hle with h | ⟨h1, h2⟩
  · exact Or.inl h
  · refine Or.inr ⟨h1, ?_⟩
    rcases Nat.lt_or_ge a.plen b.plen with h | h
    · exact h
    · exfalso
      apply hne
      have h3 : a.plen = b.plen := by omega
      cases a
      cases b
      simp_all

theorem subsetNet_refl (a : IPv4Net) : subsetNet a a := ⟨Nat.le_refl _, Nat.le_refl _⟩

theorem subsetNet_trans {a b c : IPv4Net} (h1 : subsetNet a b) (h2 : subsetNet b c) :
    subsetNet a c := by
  unfold subsetNet at h1 h2 ⊢
  omega

theorem netSize_pos (n : IPv4Net) : 0 < netSize n := Nat.pos_pow_of_pos _ (by omega)

/-- A number that is a multiple of `size` and below `2 * size` stays below
`2 * size` after adding `size`. -/
theorem aligned_mod_double (size r : Nat) (hpos : 0 < size) (hr : r % size = 0)
    (hlt : r < 2 * size) : r + size ≤ 2 * size := by
  obtain ⟨q, hq⟩ := Nat.dvd_of_mod_eq_zero hr
  have hq2 : q < 2 := by
    by_contra hge
    push_neg at hge
    have hmul : size * 2 ≤ size * q := Nat.mul_le_mul_left size hge
    omega
  have hq01 : q = 0 ∨ q = 1 := by omega
  rcases hq01 with h | h <;> subst h <;> simp only [Nat.mul_zero, Nat.mul_one] at hq <;> omega

/-- An aligned network is contained in its `supernet()`. -/
theorem subsetNet_supernet_of_aligned (n : IPv4Net) (hal : alignedNet n)
    (hp : n.plen ≤ 32) : subsetNet n (supernet n) := by
  by_cases h0 : n.plen = 0
  · have hs : supernet n = n := by
      unfold supernet
      rw [if_pos h0]
    rw [hs]
    exact subsetNet_refl n
  · have hs : supernet n = ⟨n.base - n.base % 2 ^ (32 - (n.plen - 1)), n.plen - 1⟩ := by
      unfold supernet
      rw [if_neg h0]
    have hM : 2 ^ (32 - (n.plen - 1)) = 2 * netSize n := by
      unfold netSize
      have he : 32 - (n.plen - 1) = (32 - n.plen) + 1 := by omega
      rw [he, Nat.pow_succ]
      omega
    have hMsz : netSize (supernet n) = 2 * netSize n := by
      rw [hs]
      show 2 ^ (32 - (n.plen - 1)) = 2 * netSize n
      exact hM
    have hrmod : n.base % (2 * netSize n) % netSize n = 0 := by
      rw [Nat.mod_mod_of_dvd _ (dvd_mul_left (netSize n) 2)]
      exact hal
    have hrlt : n.base % (2 * netSize n) < 2 * netSize n :=
      Nat.mod_lt _ (by have := netSize_pos n; omega)
    have hkey : n.base % (2 * netSize n) + netSize n ≤ 2 * netSize n :=
      aligned_mod_double (netSize n) _ (netSize_pos n) hrmod hrlt
    have hble : n.base % (2 * netSize n) ≤ n.base := Nat.mod_le _ _
    refine ⟨?_, ?_⟩
    · rw [hs]
      show n.base - n.base % 2 ^ (32 - (n.plen - 1)) ≤ n.base
      exact Nat.sub_le _ _
    · rw [hMsz, hs]
      show n.base + netSize n ≤ n.base - n.base % 2 ^ (32 - (n.plen - 1)) + 2 * netSize n
      rw [hM]
      omega

/-- `supernet()` preserves alignment. -/
theorem alignedNet_supernet (n : IPv4Net) (hal : alignedNet n) :
    alignedNet (supernet n) := by
  by_cases h0 : n.plen = 0
  · have hs : supernet n = n := by
      unfold supernet
      rw [if_pos h0]
    rw [hs]
    exact hal
  · have hs : supernet n = ⟨n.base - n.base % 2 ^ (32 - (n.plen - 1)), n.plen - 1⟩ := by
      unfold supernet
      rw [if_neg h0]
    rw [hs]
    show (n.base - n.base % 2 ^ (32 - (n.plen - 1))) % 2 ^ (32 - (n.plen - 1)) = 0
    have hdec : n.base - n.base % 2 ^ (32 - (n.plen - 1))
        = 2 ^ (32 - (n.plen - 1)) * (n.base / 2 ^ (32 - (n.plen - 1))) := by
      have := Nat.mod_add_div n.base (2 ^ (32 - (n.plen - 1)))
      omega
    rw [hdec]
    exact Nat.mul_mod_right _ _

theorem supernet_mk (base p : Nat) (hp : p ≠ 0) :
    supernet ⟨base, p⟩ = ⟨base - base % 2 ^ (32 - (p - 1)), p - 1⟩ := by
  have h : (⟨base, p⟩ : IPv4Net).plen ≠ 0 := hp
  unfold supernet
  rw [if_neg h]

/-- The six networks the spec's aggregation example may not leave behind:
the four /30 blocks and the two intermediate /29 blocks of `b/28`. -/
def fourNets (b : Nat) : List IPv4Net :=
  [⟨b, 30⟩, ⟨b + 4, 30⟩, ⟨b + 8, 30⟩, ⟨b + 12, 30⟩]

theorem sup_b30 (b : Nat) (hb : b % 16 = 0) : supernet ⟨b, 30⟩ = ⟨b, 29⟩ := by
  rw [supernet_mk b 30 (by decide)]
  have h1 : (2 : Nat) ^ (32 - (30 - 1)) = 8 := by norm_num
  rw [h1]
  have h2 : b % 8 = 0 := by omega
  rw [h2, Nat.sub_zero]

theorem sup_b430 (b : Nat) (hb : b % 16 = 0) : supernet ⟨b + 4, 30⟩ = ⟨b, 29⟩ := by
  rw [supernet_mk (b + 4) 30 (by decide)]
  have h1 : (2 : Nat) ^ (32 - (30 - 1)) = 8 := by norm_num
  rw [h1]
  have h2 : (b + 4) % 8 = 4 := by omega
  rw [h2]
  have h3 : b + 4 - 4 = b := by omega
  rw [h3]

theorem sup_b830 (b : Nat) (hb : b % 16 = 0) : supernet ⟨b + 8, 30⟩ = ⟨b + 8, 29⟩ := by
  rw [supernet_mk (b + 8) 30 (by decide)]
  have h1 : (2 : Nat) ^ (32 - (30 - 1)) = 8 := by norm_num
  rw [h1]
  have h2 : (b + 8) % 8 = 0 := by omega
  rw [h2, Nat.sub_zero]

theorem sup_b1230 (b : Nat) (hb : b % 16 = 0) : supernet ⟨b + 12, 30⟩ = ⟨b + 8, 29⟩ := by
  rw [supernet_mk (b + 12) 30 (by decide)]
  have h1 : (2 : Nat) ^ (32 - (30 - 1)) = 8 := by norm_num
  rw [h1]
  have h2 : (b + 12) % 8 = 4 := by omega
  rw [h2]
  have h3 : b + 12 - 4 = b + 8 := by omega
  rw [h3]

theorem sup_b29 (b : Nat) (hb : b % 16 = 0) : supernet ⟨b, 29⟩ = ⟨b, 28⟩ := by
  rw [supernet_mk b 29 (by decide)]
  have h1 : (2 : Nat) ^ (32 - (29 - 1)) = 16 := by norm_num
  rw [h1, hb, Nat.sub_zero]

theorem sup_b829 (b : Nat) (hb : b % 16 = 0) : supernet ⟨b + 8, 29⟩ = ⟨b, 28⟩ := by
  rw [supernet_mk (b + 8) 29 (by decide)]
  have h1 : (2 : Nat) ^ (32 - (29 - 1)) = 16 := by norm_num
  rw [h1]
  have h2 : (b + 8) % 16 = 8 := by omega
  rw [h2]
  have h3 : b + 8 - 8 = b := by omega
  rw [h3]

theorem sup_b28 (b : Nat) : supernet ⟨b, 28⟩ = ⟨b - b % 32, 27⟩ := by
  rw [supernet_mk b 28 (by decide)]
  have h1 : (2 : Nat) ^ (32 - (28 - 1)) = 32 := by norm_num
  rw [h1]

/-- Any network whose range sits inside `[b, b+16)` is contained in the /27
block enclosing `b/28`. -/
theorem sub_net27 (b : Nat) (hb : b % 16 = 0) (m : IPv4Net)
    (hm : b ≤ m.base ∧ m.base + netSize m ≤ b + 16) :
    subsetNet m ⟨b - b % 32, 27⟩ := by
  have hsz : netSize ⟨b - b % 32, 27⟩ = 32 := rfl
  refine ⟨?_, ?_⟩
  · show b - b % 32 ≤ m.base
    have hle : b - b % 32 ≤ b := Nat.sub_le _ _
    omega
  · show m.base + netSize m ≤ b - b % 32 + netSize ⟨b - b % 32, 27⟩
    rw [hsz]
    have hlt : b % 32 < 32 := Nat.mod_lt _ (by omega)
    have hle : b % 32 ≤ b := Nat.mod_le _ _
    omega

/-- Key gap lemma: an aligned network whose sort key lies strictly between two
consecutive /30 keys of the tiling of `b/28` has its whole range inside
`b/28`. -/
theorem between_subset_net28 (b : Nat) (hb : b % 16 = 0) (i : Nat) (hi : i < 3)
    (m : IPv4Net) (hal : alignedNet m) (hple : m.plen ≤ 32)
    (h1 : netKeyLt ⟨b + 4 * i, 30⟩ m) (h2 : netKeyLt m ⟨b + 4 * (i + 1), 30⟩) :
    subsetNet m ⟨b, 28⟩ := by
  have h1' : b + 4 * i < m.base ∨ (b + 4 * i = m.base ∧ 30 < m.plen) := h1
  have h2' : m.base < b + 4 * (i + 1) ∨ (m.base = b + 4 * (i + 1) ∧ m.plen < 30) := h2
  have hsub : b ≤ m.base ∧ m.base + netSize m ≤ b + 16 → subsetNet m ⟨b, 28⟩ := by
    intro h
    exact ⟨h.1, h.2⟩
  have hszdvd : netSize m ∣ m.base := Nat.dvd_of_mod_eq_zero hal
  by_cases hp31 : 31 ≤ m.plen
  · -- tiny network: at most two addresses
    have hs2 : netSize m ≤ 2 := by
      unfold netSize
      calc 2 ^ (32 - m.plen) ≤ 2 ^ 1 := Nat.pow_le_pow_right (by omega) (by omega)
        _ = 2 := rfl
    apply hsub
    omega
  · -- prefix at most 30: the base is a multiple of 4
    have h4 : (2 : Nat) ^ 2 ∣ 2 ^ (32 - m.plen) := pow_dvd_pow 2 (by omega)
    have h4' : (4 : Nat) ∣ netSize m := by
      unfold netSize
      have he : (2 : Nat) ^ 2 = 4 := rfl
      rw [he] at h4
      exact h4
    have h4base : (4 : Nat) ∣ m.base := dvd_trans h4' hszdvd
    rcases h1' with h1l | ⟨h1e, h1p⟩
    · rcases h2' with h2l | ⟨h2e, h2p⟩
      · -- base strictly between two multiples of 4 that differ by 4: impossible
        exfalso
        omega
      · -- base = b + 4*(i+1), prefix < 30: needs 8-alignment, forcing b+8/29
        have h8 : (2 : Nat) ^ 3 ∣ 2 ^ (32 - m.plen) := pow_dvd_pow 2 (by omega)
        have h8' : (8 : Nat) ∣ netSize m := by
          unfold netSize
          have he : (2 : Nat) ^ 3 = 8 := rfl
          rw [he] at h8
          exact h8
        have h8base : (8 : Nat) ∣ m.base := dvd_trans h8' hszdvd
        have hieq : i = 1 := by omega
        subst hieq
        by_cases hp28 : m.plen ≤ 28
        · exfalso
          have h16 : (2 : Nat) ^ 4 ∣ 2 ^ (32 - m.plen) := pow_dvd_pow 2 (by omega)
          have h16' : (16 : Nat) ∣ netSize m := by
            unfold netSize
            have he : (2 : Nat) ^ 4 = 16 := rfl
            rw [he] at h16
            exact h16
          have h16base : (16 : Nat) ∣ m.base := dvd_trans h16' hszdvd
          omega
        · have hp29 : m.plen = 29 := by omega
          have hsz8 : netSize m = 8 := by
            unfold netSize
            rw [hp29]
            norm_num
          apply hsub
          omega
    · exfalso
      omega

/-! ### Controlled unfoldings of the merge loop -/

theorem merge_tops_fuel_stop (f : Nat) (l : List (IPv4Net × Nat × Nat × Nat))
    (h : ∀ a bx rest, l = a :: bx :: rest →
      ¬ (supernet a.1 = supernet bx.1 ∧ a.2.2.1 = bx.2.2.1)) :
    merge_tops_fuel f l = l := by
  match f, l with
  | 0, l => rfl
  | f + 1, [] => rfl
  | f + 1, [a] => rfl
  | f + 1, a :: bx :: rest =>
    have hunf : merge_tops_fuel (f + 1) (a :: bx :: rest)
        = if supernet a.1 = supernet bx.1 ∧ a.2.2.1 = bx.2.2.1 then
            merge_tops_fuel f ((supernet a.1, a.2) :: rest)
          else a :: bx :: rest := rfl
    rw [hunf, if_neg (h a bx rest rfl)]

theorem merge_tops_fuel_step (f : Nat) (a bx : IPv4Net × Nat × Nat × Nat)
    (rest : List (IPv4Net × Nat × Nat × Nat))
    (h : supernet a.1 = supernet bx.1 ∧ a.2.2.1 = bx.2.2.1) :
    merge_tops_fuel (f + 1) (a :: bx :: rest)
      = merge_tops_fuel f ((supernet a.1, a.2) :: rest) := by
  have hunf : merge_tops_fuel (f + 1) (a :: bx :: rest)
      = if supernet a.1 = supernet bx.1 ∧ a.2.2.1 = bx.2.2.1 then
          merge_tops_fuel f ((supernet a.1, a.2) :: rest)
        else a :: bx :: rest := rfl
  rw [hunf, if_pos h]

/-- Invariant of a stack segment built while processing the entries of `P`:
every segment entry is an aligned network of prefix length at most 32 that
contains some processed input network. -/
def stackOrig (P : List (IPv4Net × Nat × Nat × Nat))
    (x : IPv4Net × Nat × Nat × Nat) : Prop :=
  alignedNet x.1 ∧ x.1.plen ≤ 32 ∧ ∃ a ∈ P, subsetNet a.1 x.1

theorem stackOrig_merge (P : List (IPv4Net × Nat × Nat × Nat)) :
    ∀ x, stackOrig P x → stackOrig P (supernet x.1, x.2) := by
  intro x hx
  obtain ⟨hal, hple, a, ha, hsub⟩ := hx
  refine ⟨alignedNet_supernet x.1 hal, ?_, a, ha, ?_⟩
  · show (supernet x.1).plen ≤ 32
    have := supernet_plen_le x.1
    omega
  · show subsetNet a.1 (supernet x.1)
    exact subsetNet_trans hsub (subsetNet_supernet_of_aligned x.1 hal hple)

/-- Aggregating any list of aligned networks from an empty stack keeps the
origin invariant for the whole stack. -/
theorem agg_phase_orig (P : List (IPv4Net × Nat × Nat × Nat))
    (hP : ∀ a ∈ P, alignedNet a.1 ∧ a.1.plen ≤ 32) :
    ∀ x ∈ P.foldl agg_step [], stackOrig P x := by
  refine foldl_preserve (fun st => ∀ x ∈ st, stackOrig P x) agg_step P ?_ [] (by simp)
  intro st e he hst
  unfold agg_step
  refine merge_tops_pres (stackOrig P) (stackOrig_merge P) (e :: st) ?_
  intro y hy
  rcases List.mem_cons.1 hy with hy | hy
  · rw [hy]
    exact ⟨(hP e he).1, (hP e he).2, e, he, subsetNet_refl _⟩
  · exact hst y hy

/-- A stack entry that contains a processed network not contained in the /27
cannot have that /27 — nor anything inside it — as its parent's block. -/
theorem stack_block (P : List (IPv4Net × Nat × Nat × Nat)) (w : IPv4Net)
    (hP : ∀ a ∈ P, ¬ subsetNet a.1 w)
    (x : IPv4Net × Nat × Nat × Nat) (hx : stackOrig P x) (N : IPv4Net)
    (hN : subsetNet N w) (heq : supernet x.1 = N) : False := by
  obtain ⟨hal, hple, a, ha, hsub⟩ := hx
  have h1 : subsetNet x.1 N := by
    rw [← heq]
    exact subsetNet_supernet_of_aligned x.1 hal hple
  exact hP a ha (subsetNet_trans (subsetNet_trans hsub h1) hN)

/-- The merge loop never reaches below a stack entry it refuses to merge
with: processing above `C` leaves `C` and everything under it untouched. -/
theorem merge_tops_fuel_frozen (C : IPv4Net × Nat × Nat × Nat)
    (SA : List (IPv4Net × Nat × Nat × Nat))
    (Q : IPv4Net × Nat × Nat × Nat → Prop)
    (hblock : ∀ x, Q x → ¬ (supernet x.1 = supernet C.1 ∧ x.2.2.1 = C.2.2.1))
    (hclosed : ∀ x, Q x → Q (supernet x.1, x.2)) :
    ∀ (fuel : Nat) (y : IPv4Net × Nat × Nat × Nat)
      (S1 : List (IPv4Net × Nat × Nat × Nat)),
      Q y → (∀ x ∈ S1, Q x) →
      ∃ z S2, merge_tops_fuel fuel (y :: (S1 ++ C :: SA)) = z :: (S2 ++ C :: SA) ∧
        Q z ∧ (∀ x ∈ S2, Q x) := by
  intro fuel
  induction fuel with
  | zero =>
    intro y S1 hy hS1
    exact ⟨y, S1, rfl, hy, hS1⟩
  | succ f ih =>
    intro y S1 hy hS1
    match S1 with
    | [] =>
      have hunf : merge_tops_fuel (f + 1) (y :: ([] ++ C :: SA))
          = if supernet y.1 = supernet C.1 ∧ y.2.2.1 = C.2.2.1 then
              merge_tops_fuel f ((supernet y.1, y.2) :: SA)
            else y :: C :: SA := rfl
      rw [hunf, if_neg (hblock y hy)]
      exact ⟨y, [], rfl, hy, by simp⟩
    | w :: S1' =>
      have hunf : merge_tops_fuel (f + 1) (y :: ((w :: S1') ++ C :: SA))
          = if supernet y.1 = supernet w.1 ∧ y.2.2.1 = w.2.2.1 then
              merge_tops_fuel f ((supernet y.1, y.2) :: (S1' ++ C :: SA))
            else y :: w :: (S1' ++ C :: SA) := rfl
      by_cases hc : supernet y.1 = supernet w.1 ∧ y.2.2.1 = w.2.2.1
      · rw [hunf, if_pos hc]
        exact ih (supernet y.1, y.2) S1' (hclosed y hy)
          (fun x hx => hS1 x (List.mem_cons_of_mem _ hx))
      · rw [hunf, if_neg hc]
        refine ⟨y, w :: S1', rfl, hy, ?_⟩
        exact hS1

/-- Processing further entries above a blocked stack entry `C` only ever
changes the stack segment above `C`. -/
theorem agg_phase_above (C : IPv4Net × Nat × Nat × Nat)
    (SA : List (IPv4Net × Nat × Nat × Nat))
    (Q : IPv4Net × Nat × Nat × Nat → Prop)
    (hblock : ∀ x, Q x → ¬ (supernet x.1 = supernet C.1 ∧ x.2.2.1 = C.2.2.1))
    (hclosed : ∀ x, Q x → Q (supernet x.1, x.2)) :
    ∀ (B : List (IPv4Net × Nat × Nat × Nat)), (∀ e ∈ B, Q e) →
      ∀ S1, (∀ x ∈ S1, Q x) →
      ∃ S1', B.foldl agg_step (S1 ++ C :: SA) = S1' ++ C :: SA ∧ ∀ x ∈ S1', Q x := by
  intro B
  induction B with
  | nil =>
    intro _ S1 hS1
    exact ⟨S1, rfl, hS1⟩
  | cons e B' ih =>
    intro hB S1 hS1
    rw [List.foldl_cons]
    have hstep : agg_step (S1 ++ C :: SA) e
        = merge_tops_fuel (e :: (S1 ++ C :: SA)).length (e :: (S1 ++ C :: SA)) := rfl
    obtain ⟨z, S2, heq, hz, hS2⟩ := merge_tops_fuel_frozen C SA Q hblock hclosed
      (e :: (S1 ++ C :: SA)).length e S1 (hB e (List.mem_cons_self e B')) hS1
    rw [hstep, heq]
    have hzx : z :: (S2 ++ C :: SA) = (z :: S2) ++ C :: SA := rfl
    rw [hzx]
    refine ih (fun x hx => hB x (List.mem_cons_of_mem _ hx)) (z :: S2) ?_
    intro x hx
    rcases List.mem_cons.1 hx with hx | hx
    · rw [hx]; exact hz
    · exact hS2 x hx

theorem net29a_in27 (b : Nat) (hb : b % 16 = 0) :
    subsetNet ⟨b, 29⟩ ⟨b - b % 32, 27⟩ :=
  sub_net27 b hb ⟨b, 29⟩ ⟨Nat.le_refl b, by show b + 8 ≤ b + 16; omega⟩

theorem net29b_in27 (b : Nat) (hb : b % 16 = 0) :
    subsetNet ⟨b + 8, 29⟩ ⟨b - b % 32, 27⟩ :=
  sub_net27 b hb ⟨b + 8, 29⟩ ⟨by show b ≤ b + 8; omega, by show b + 8 + 8 ≤ b + 16; omega⟩

theorem net28_in27 (b : Nat) (hb : b % 16 = 0) :
    subsetNet ⟨b, 28⟩ ⟨b - b % 32, 27⟩ :=
  sub_net27 b hb ⟨b, 28⟩ ⟨Nat.le_refl b, by show b + 16 ≤ b + 16; omega⟩

/-- A push whose parent block sits inside the protected /27 cannot merge with
the top of a stack whose entries all contain processed outside networks. -/
theorem merge_stop_sa (f : Nat) (P : List (IPv4Net × Nat × Nat × Nat)) (w : IPv4Net)
    (hP : ∀ a ∈ P, ¬ subsetNet a.1 w)
    (SA : List (IPv4Net × Nat × Nat × Nat)) (hSA : ∀ x ∈ SA, stackOrig P x)
    (T : IPv4Net × Nat × Nat × Nat) (N : IPv4Net)
    (hTN : supernet T.1 = N) (hN : subsetNet N w) :
    merge_tops_fuel f (T :: SA) = T :: SA := by
  refine merge_tops_fuel_stop f _ ?_
  intro a bx rest heq
  injection heq with h1 h2
  intro hcond
  have hbx : bx ∈ SA := by
    rw [h2]
    exact List.mem_cons_self bx rest
  apply stack_block P w hP bx (hSA bx hbx) N hN
  rw [← hcond.1, ← h1, hTN]

/-- The cascade: pushing the four /30 blocks of `b/28` (in key order, all with
gateway `g`) onto a stack of outside-derived entries merges them into the
single entry `(b/28, v3)`, leaving the rest of the stack untouched. -/
theorem f_phase (b g : Nat) (hb : b % 16 = 0)
    (v0 v1 v2 v3 : Nat × Nat × Nat)
    (hg0 : v0.2.1 = g) (hg1 : v1.2.1 = g) (hg2 : v2.2.1 = g) (hg3 : v3.2.1 = g)
    (P : List (IPv4Net × Nat × Nat × Nat))
    (hP : ∀ a ∈ P, ¬ subsetNet a.1 ⟨b - b % 32, 27⟩)
    (SA : List (IPv4Net × Nat × Nat × Nat)) (hSA : ∀ x ∈ SA, stackOrig P x) :
    [((⟨b, 30⟩ : IPv4Net), v0), (⟨b + 4, 30⟩, v1), (⟨b + 8, 30⟩, v2),
      (⟨b + 12, 30⟩, v3)].foldl agg_step SA = (⟨b, 28⟩, v3) :: SA := by
  rw [List.foldl_cons, List.foldl_cons, List.foldl_cons, List.foldl_cons, List.foldl_nil]
  have h1 : agg_step SA (⟨b, 30⟩, v0) = (⟨b, 30⟩, v0) :: SA := by
    show merge_tops_fuel ((⟨b, 30⟩, v0) :: SA).length ((⟨b, 30⟩, v0) :: SA) = _
    refine merge_stop_sa _ P _ hP SA hSA _ ⟨b, 29⟩ ?_ (net29a_in27 b hb)
    show supernet ⟨b, 30⟩ = ⟨b, 29⟩
    exact sup_b30 b hb
  rw [h1]
  have h2 : agg_step ((⟨b, 30⟩, v0) :: SA) (⟨b + 4, 30⟩, v1) = (⟨b, 29⟩, v1) :: SA := by
    show merge_tops_fuel (SA.length + 1 + 1)
      ((⟨b + 4, 30⟩, v1) :: (⟨b, 30⟩, v0) :: SA) = _
    have hst := merge_tops_fuel_step (SA.length + 1) (⟨b + 4, 30⟩, v1) (⟨b, 30⟩, v0) SA
      ⟨by show supernet ⟨b + 4, 30⟩ = supernet ⟨b, 30⟩
          rw [sup_b430 b hb, sup_b30 b hb],
       by show v1.2.1 = v0.2.1
          rw [hg1, hg0]⟩
    rw [hst]
    have hred : ((supernet ((⟨b + 4, 30⟩ : IPv4Net), v1).1,
        ((⟨b + 4, 30⟩ : IPv4Net), v1).2) : IPv4Net × Nat × Nat × Nat) = (⟨b, 29⟩, v1) := by
      show ((supernet ⟨b + 4, 30⟩, v1) : IPv4Net × Nat × Nat × Nat) = (⟨b, 29⟩, v1)
      rw [sup_b430 b hb]
    rw [hred]
    refine merge_stop_sa _ P _ hP SA hSA _ ⟨b, 28⟩ ?_ (net28_in27 b hb)
    show supernet ⟨b, 29⟩ = ⟨b, 28⟩
    exact sup_b29 b hb
  rw [h2]
  have h3 : agg_step ((⟨b, 29⟩, v1) :: SA) (⟨b + 8, 30⟩, v2)
      = (⟨b + 8, 30⟩, v2) :: (⟨b, 29⟩, v1) :: SA := by
    show merge_tops_fuel ((⟨b + 8, 30⟩, v2) :: (⟨b, 29⟩, v1) :: SA).length
      ((⟨b + 8, 30⟩, v2) :: (⟨b, 29⟩, v1) :: SA) = _
    refine merge_tops_fuel_stop _ _ ?_
    intro a bx rest heq
    injection heq with ha htail
    injection htail with hbx hrest
    intro hcond
    have hc1 : supernet a.1 = supernet bx.1 := hcond.1
    rw [← ha, ← hbx] at hc1
    have hc2 : supernet (⟨b + 8, 30⟩ : IPv4Net) = supernet (⟨b, 29⟩ : IPv4Net) := hc1
    rw [sup_b830 b hb, sup_b29 b hb] at hc2
    have hplen : (29 : Nat) = 28 := congrArg IPv4Net.plen hc2
    omega
  rw [h3]
  have h4 : agg_step ((⟨b + 8, 30⟩, v2) :: (⟨b, 29⟩, v1) :: SA) (⟨b + 12, 30⟩, v3)
      = (⟨b, 28⟩, v3) :: SA := by
    show merge_tops_fuel (SA.length + 1 + 1 + 1)
      ((⟨b + 12, 30⟩, v3) :: (⟨b + 8, 30⟩, v2) :: (⟨b, 29⟩, v1) :: SA) = _
    have hst1 := merge_tops_fuel_step (SA.length + 1 + 1) (⟨b + 12, 30⟩, v3)
      (⟨b + 8, 30⟩, v2) ((⟨b, 29⟩, v1) :: SA)
      ⟨by show supernet ⟨b + 12, 30⟩ = supernet ⟨b + 8, 30⟩
          rw [sup_b1230 b hb, sup_b830 b hb],
       by show v3.2.1 = v2.2.1
          rw [hg3, hg2]⟩
    rw [hst1]
    have hred1 : ((supernet ((⟨b + 12, 30⟩ : IPv4Net), v3).1,
        ((⟨b + 12, 30⟩ : IPv4Net), v3).2) : IPv4Net × Nat × Nat × Nat)
        = (⟨b + 8, 29⟩, v3) := by
      show ((supernet ⟨b + 12, 30⟩, v3) : IPv4Net × Nat × Nat × Nat) = (⟨b + 8, 29⟩, v3)
      rw [sup_b1230 b hb]
    rw [hred1]
    have hst2 := merge_tops_fuel_step (SA.length + 1) (⟨b + 8, 29⟩, v3) (⟨b, 29⟩, v1) SA
      ⟨by show supernet ⟨b + 8, 29⟩ = supernet ⟨b, 29⟩
          rw [sup_b829 b hb, sup_b29 b hb],
       by show v3.2.1 = v1.2.1
          rw [hg3, hg1]⟩
    rw [hst2]
    have hred2 : ((supernet ((⟨b + 8, 29⟩ : IPv4Net), v3).1,
        ((⟨b + 8, 29⟩ : IPv4Net), v3).2) : IPv4Net × Nat × Nat × Nat) = (⟨b, 28⟩, v3) := by
      show ((supernet ⟨b + 8, 29⟩, v3) : IPv4Net × Nat × Nat × Nat) = (⟨b, 28⟩, v3)
      rw [sup_b829 b hb]
    rw [hred2]
    refine merge_stop_sa _ P _ hP SA hSA _ ⟨b - b % 32, 27⟩ ?_ (subsetNet_refl _)
    show supernet ⟨b, 28⟩ = ⟨b - b % 32, 27⟩
    exact sup_b28 b
  rw [h4]

/-! ### Locating the four /30 blocks inside the sorted entry list -/

/-- Splitting a list at an element that occurs only once is unambiguous. -/
theorem unique_split {α : Type} (y : α) :
    ∀ (P1 S1 P2 S2 : List α),
      P1 ++ y :: S1 = P2 ++ y :: S2 → y ∉ P1 → y ∉ P2 → P1 = P2 ∧ S1 = S2 := by
  intro P1
  induction P1 with
  | nil =>
    intro S1 P2 S2 heq hy1 hy2
    match P2 with
    | [] =>
      simp only [List.nil_append] at heq
      injection heq with h1 h2
      exact ⟨rfl, h2⟩
    | p :: P2' =>
      simp only [List.nil_append, List.cons_append] at heq
      injection heq with h1 h2
      exfalso
      apply hy2
      rw [h1]
      exact List.mem_cons_self p P2'
  | cons a P1' ih =>
    intro S1 P2 S2 heq hy1 hy2
    match P2 with
    | [] =>
      simp only [List.cons_append, List.nil_append] at heq
      injection heq with h1 h2
      exfalso
      apply hy1
      rw [← h1]
      exact List.mem_cons_self a P1'
    | p :: P2' =>
      simp only [List.cons_append] at heq
      injection heq with h1 h2
      obtain ⟨hA, hB⟩ := ih S1 P2' S2 h2
        (fun h => hy1 (List.mem_cons_of_mem _ h))
        (fun h => hy2 (List.mem_cons_of_mem _ h))
      refine ⟨?_, hB⟩
      rw [h1, hA]

/-- In a strictly key-sorted list, two members with no member strictly
between them are adjacent. -/
theorem adjacent_in_sorted :
    ∀ (l : List (IPv4Net × Nat × Nat × Nat)),
      l.Pairwise (fun x y => netKeyLt x.1 y.1) →
      ∀ x y, x ∈ l → y ∈ l → netKeyLt x.1 y.1 →
      (∀ z ∈ l, ¬ (netKeyLt x.1 z.1 ∧ netKeyLt z.1 y.1)) →
      ∃ A B, l = A ++ x :: y :: B := by
  intro l
  induction l with
  | nil =>
    intro _ x y hx
    simp at hx
  | cons w l' ih =>
    intro hpw x y hx hy hxy hnb
    have hpw' := List.pairwise_cons.1 hpw
    by_cases hxw : x = w
    · subst hxw
      have hyl : y ∈ l' := by
        rcases List.mem_cons.1 hy with h | h
        · exfalso
          rw [h] at hxy
          exact netKeyLt_irrefl _ hxy
        · exact h
      match l', hyl, hpw', ih with
      | u :: rest, hyl, hpw', ih =>
        by_cases huy : u = y
        · refine ⟨[], rest, ?_⟩
          rw [huy]
          rfl
        · exfalso
          have hyrest : y ∈ rest := by
            rcases List.mem_cons.1 hyl with h | h
            · exact absurd h.symm huy
            · exact h
          have hxu : netKeyLt x.1 u.1 := hpw'.1 u (List.mem_cons_self u rest)
          have huy2 : netKeyLt u.1 y.1 := (List.pairwise_cons.1 hpw'.2).1 y hyrest
          exact hnb u (List.mem_cons_of_mem _ (List.mem_cons_self u rest)) ⟨hxu, huy2⟩
    · have hxl : x ∈ l' := by
        rcases List.mem_cons.1 hx with h | h
        · exact absurd h hxw
        · exact h
      have hyw : y ≠ w := by
        intro h
        subst h
        exact netKeyLt_antisym hxy (hpw'.1 x hxl)
      have hyl : y ∈ l' := by
        rcases List.mem_cons.1 hy with h | h
        · exact absurd h hyw
        · exact h
      obtain ⟨A, B, hAB⟩ := ih hpw'.2 x y hxl hyl hxy
        (fun z hz => hnb z (List.mem_cons_of_mem _ hz))
      refine ⟨w :: A, B, ?_⟩
      rw [hAB]
      rfl

/-- Positional uniqueness facts extracted from a nodup decomposition. -/
theorem nodup_decomp_facts {α : Type} (l A B : List α) (x y : α)
    (h : l = A ++ x :: y :: B) (hnd : l.Nodup) : y ∉ A ∧ y ≠ x ∧ x ∉ A := by
  subst h
  rw [List.nodup_append] at hnd
  obtain ⟨hA, hcons, hdisj⟩ := hnd
  rw [List.nodup_cons] at hcons
  refine ⟨fun hy => ?_, fun hyx => ?_, fun hx => ?_⟩
  · exact hdisj hy (List.mem_cons_of_mem _ (List.mem_cons_self y B))
  · exact hcons.1 (by rw [← hyx]; exact List.mem_cons_self y B)
  · exact hdisj hx (List.mem_cons_self x _)

/-- Key disjointness facts from a nodup key list split around four keys. -/
theorem keys_facts {α : Type} (K : List α) (k0 k1 k2 k3 : α) (KB : List α)
    (hnd : (K ++ k0 :: k1 :: k2 :: k3 :: KB).Nodup) :
    (∀ a ∈ K, a ≠ k0 ∧ a ≠ k1 ∧ a ≠ k2 ∧ a ≠ k3) ∧
    (∀ a ∈ KB, a ≠ k0 ∧ a ≠ k1 ∧ a ≠ k2 ∧ a ≠ k3) := by
  rw [List.nodup_append] at hnd
  obtain ⟨hK, hrest, hdisj⟩ := hnd
  have h0 := (List.nodup_cons.1 hrest).1
  have hrest1 := (List.nodup_cons.1 hrest).2
  have h1 := (List.nodup_cons.1 hrest1).1
  have hrest2 := (List.nodup_cons.1 hrest1).2
  have h2 := (List.nodup_cons.1 hrest2).1
  have hrest3 := (List.nodup_cons.1 hrest2).2
  have h3 := (List.nodup_cons.1 hrest3).1
  constructor
  · intro a ha
    have hnot := hdisj ha
    refine ⟨fun he => ?_, fun he => ?_, fun he => ?_, fun he => ?_⟩
    · subst he
      exact hnot (List.mem_cons_self _ _)
    · subst he
      exact hnot (List.mem_cons_of_mem _ (List.mem_cons_self _ _))
    · subst he
      exact hnot (List.mem_cons_of_mem _ (List.mem_cons_of_mem _ (List.mem_cons_self _ _)))
    · subst he
      exact hnot (List.mem_cons_of_mem _ (List.mem_cons_of_mem _ (List.mem_cons_of_mem _ (List.mem_cons_self _ _))))
  · intro a ha
    refine ⟨fun he => ?_, fun he => ?_, fun he => ?_, fun he => ?_⟩
    · subst he
      exact h0 (List.mem_cons_of_mem _ (List.mem_cons_of_mem _ (List.mem_cons_of_mem _ ha)))
    · subst he
      exact h1 (List.mem_cons_of_mem _ (List.mem_cons_of_mem _ ha))
    · subst he
      exact h2 (List.mem_cons_of_mem _ ha)
    · subst he
      exact h3 ha

/-- In a pair list with nodup keys, an element is determined by its key. -/
theorem mem_eq_of_nodup_keys {α β : Type} :
    ∀ (l : List (α × β)), (l.map (fun r => r.1)).Nodup →
      ∀ a ∈ l, ∀ b ∈ l, a.1 = b.1 → a = b := by
  intro l
  induction l with
  | nil =>
    intro _ a ha
    simp at ha
  | cons x xs ih =>
    intro h a ha b hb hfst
    simp only [List.map_cons, List.nodup_cons] at h
    rcases List.mem_cons.1 ha with ha1 | ha2
    · rcases List.mem_cons.1 hb with hb1 | hb2
      · rw [ha1, hb1]
      · subst ha1
        have hmem : b.1 ∈ xs.map (fun r => r.1) := List.mem_map_of_mem _ hb2
        rw [← hfst] at hmem
        exact absurd hmem h.1
    · rcases List.mem_cons.1 hb with hb1 | hb2
      · subst hb1
        have hmem : a.1 ∈ xs.map (fun r => r.1) := List.mem_map_of_mem _ ha2
        rw [hfst] at hmem
        exact absurd hmem h.1
      · exact ih h.2 a ha2 b hb2 hfst

/-- Nothing in the entry list has a sort key strictly between two consecutive
/30 keys: the four tiling blocks are the only table networks inside the /27,
and everything in the gap would lie inside it. -/
theorem no_strict_between (b : Nat) (hb : b % 16 = 0)
    (M : List (IPv4Net × Nat × Nat × Nat))
    (hother : ∀ e ∈ M, e.1 ∉ fourNets b → ¬ subsetNet e.1 ⟨b - b % 32, 27⟩)
    (hal : ∀ e ∈ M, alignedNet e.1 ∧ e.1.plen ≤ 32)
    (i : Nat) (hi : i < 3) (z : IPv4Net × Nat × Nat × Nat) (hz : z ∈ M)
    (h1 : netKeyLt ⟨b + 4 * i, 30⟩ z.1) (h2 : netKeyLt z.1 ⟨b + 4 * (i + 1), 30⟩) :
    False := by
  by_cases hzin : z.1 ∈ fourNets b
  · have hzl : z.1 = ⟨b, 30⟩ ∨ z.1 = ⟨b + 4, 30⟩ ∨ z.1 = ⟨b + 8, 30⟩ ∨ z.1 = ⟨b + 12, 30⟩ := by
      simpa [fourNets] using hzin
    rcases hzl with h | h | h | h <;>
      · rw [h] at h1 h2
        have h1' : b + 4 * i < IPv4Net.base _ ∨
            (b + 4 * i = IPv4Net.base _ ∧ 30 < IPv4Net.plen _) := h1
        have h2' : IPv4Net.base _ < b + 4 * (i + 1) ∨
            (IPv4Net.base _ = b + 4 * (i + 1) ∧ IPv4Net.plen _ < 30) := h2
        simp only [IPv4Net.base, IPv4Net.plen] at h1' h2'
        omega
  · have hsub : subsetNet z.1 ⟨b, 28⟩ :=
      between_subset_net28 b hb i hi z.1 (hal z hz).1 (hal z hz).2 h1 h2
    refine hother z hz hzin (subsetNet_trans hsub ?_)
    exact sub_net27 b hb ⟨b, 28⟩ ⟨Nat.le_refl b, by show b + 16 ≤ b + 16; omega⟩

/-! ### `dict()` reconstruction facts -/

theorem dict_put_keys (k : IPv4Net) (v : Nat × Nat × Nat) :
    ∀ (acc : List (IPv4Net × Nat × Nat × Nat)),
      (dict_put acc k v).map (fun e => e.1) =
        if k ∈ acc.map (fun e => e.1) then acc.map (fun e => e.1)
        else acc.map (fun e => e.1) ++ [k] := by
  intro acc
  induction acc with
  | nil => simp [dict_put]
  | cons e rest ih =>
    obtain ⟨k', v'⟩ := e
    have hput : dict_put ((k', v') :: rest) k v
        = if k' = k then (k, v) :: rest else (k', v') :: dict_put rest k v := rfl
    rw [hput]
    by_cases hk : k' = k
    · rw [if_pos hk]
      have hmem : k ∈ ((k', v') :: rest).map (fun e => e.1) := by
        simp [hk.symm]
      rw [if_pos hmem]
      simp [hk]
    · rw [if_neg hk]
      by_cases hmem : k ∈ rest.map (fun e => e.1)
      · have hmem' : k ∈ ((k', v') :: rest).map (fun e => e.1) := by
          simp only [List.map_cons, List.mem_cons]
          exact Or.inr hmem
        rw [if_pos hmem']
        simp only [List.map_cons]
        rw [ih, if_pos hmem]
      · have hmem' : k ∉ ((k', v') :: rest).map (fun e => e.1) := by
          simp only [List.map_cons, List.mem_cons]
          intro hc
          rcases hc with hc | hc
          · exact hk hc.symm
          · exact hmem hc
        rw [if_neg hmem']
        simp only [List.map_cons]
        rw [ih, if_neg hmem, List.cons_append]

theorem dict_of_pairs_keys_nodup (l : List (IPv4Net × Nat × Nat × Nat)) :
    ((dict_of_pairs l).map (fun e => e.1)).Nodup := by
  unfold dict_of_pairs
  refine foldl_preserve (fun acc => (acc.map (fun e => e.1)).Nodup)
    (fun acc e => dict_put acc e.1 e.2) l ?_ [] (by simp)
  intro acc e _ hacc
  rw [dict_put_keys]
  by_cases hmem : e.1 ∈ acc.map (fun e => e.1)
  · rw [if_pos hmem]
    exact hacc
  · rw [if_neg hmem]
    simp [List.nodup_append, hacc, hmem]

theorem dict_put_mem_pres (k : IPv4Net) (v : Nat × Nat × Nat) :
    ∀ (acc : List (IPv4Net × Nat × Nat × Nat)) (e : IPv4Net × Nat × Nat × Nat),
      e ∈ acc → e.1 ≠ k → e ∈ dict_put acc k v := by
  intro acc
  induction acc with
  | nil =>
    intro e he
    simp at he
  | cons x rest ih =>
    obtain ⟨k', v'⟩ := x
    intro e he hne
    have hput : dict_put ((k', v') :: rest) k v
        = if k' = k then (k, v) :: rest else (k', v') :: dict_put rest k v := rfl
    rw [hput]
    by_cases hk : k' = k
    · rw [if_pos hk]
      rcases List.mem_cons.1 he with he1 | he2
      · exfalso
        apply hne
        rw [he1, hk]
      · exact List.mem_cons_of_mem _ he2
    · rw [if_neg hk]
      rcases List.mem_cons.1 he with he1 | he2
      · rw [he1]
        exact List.mem_cons_self _ _
      · exact List.mem_cons_of_mem _ (ih e he2 hne)

theorem dict_put_mem_self (k : IPv4Net) (v : Nat × Nat × Nat) :
    ∀ (acc : List (IPv4Net × Nat × Nat × Nat)), (k, v) ∈ dict_put acc k v := by
  intro acc
  induction acc with
  | nil =>
    show (k, v) ∈ [(k, v)]
    exact List.mem_cons_self _ _
  | cons x rest ih =>
    obtain ⟨k', v'⟩ := x
    have hput : dict_put ((k', v') :: rest) k v
        = if k' = k then (k, v) :: rest else (k', v') :: dict_put rest k v := rfl
    rw [hput]
    by_cases hk : k' = k
    · rw [if_pos hk]
      exact List.mem_cons_self _ _
    · rw [if_neg hk]
      exact List.mem_cons_of_mem _ ih

/-- A pair whose key always carries the same value in the input list survives
into the rebuilt dict. -/
theorem dict_of_pairs_mem_unique (k : IPv4Net) (v : Nat × Nat × Nat) :
    ∀ (l acc : List (IPv4Net × Nat × Nat × Nat)),
      (∀ e ∈ l, e.1 = k → e.2 = v) →
      (((k, v) ∈ acc) ∨ (k, v) ∈ l) →
      (k, v) ∈ l.foldl (fun acc e => dict_put acc e.1 e.2) acc := by
  intro l
  induction l with
  | nil =>
    intro acc _ hin
    rcases hin with h | h
    · exact h
    · simp at h
  | cons e l' ih =>
    intro acc hval hin
    rw [List.foldl_cons]
    by_cases hek : e.1 = k
    · have hev : e.2 = v := hval e (List.mem_cons_self e l') hek
      refine ih (dict_put acc e.1 e.2) (fun x hx h => hval x (List.mem_cons_of_mem _ hx) h)
        (Or.inl ?_)
      rw [hek, hev]
      exact dict_put_mem_self k v _
    · rcases hin with h | h
      · exact ih _ (fun x hx hxk => hval x (List.mem_cons_of_mem _ hx) hxk)
          (Or.inl (dict_put_mem_pres e.1 e.2 acc (k, v) h (fun hc => hek hc.symm)))
      · rcases List.mem_cons.1 h with h1 | h2
        · exfalso
          apply hek
          rw [← h1]
        · exact ih _ (fun x hx hxk => hval x (List.mem_cons_of_mem _ hx) hxk) (Or.inr h2)

/-- Full aggregation run: when the resolved table's networks are the four /30
blocks of `b/28` (all with gateway `g`) plus arbitrary entries that avoid the
enclosing /27, the rebuilt dict holds the merged `b/28` entry and no entry
keyed by the /30 or /29 blocks. Stated over any sorted permutation `L` of the
entry list `M`. -/
theorem agg_sorted_facts (b g : Nat) (hb : b % 16 = 0)
    (v0 v1 v2 v3 : Nat × Nat × Nat)
    (hg0 : v0.2.1 = g) (hg1 : v1.2.1 = g) (hg2 : v2.2.1 = g) (hg3 : v3.2.1 = g)
    (M L : List (IPv4Net × Nat × Nat × Nat))
    (hperm : L.Perm M)
    (hsorted : L.Pairwise sortKeyLe)
    (hm0 : ((⟨b, 30⟩ : IPv4Net), v0) ∈ M)
    (hm1 : ((⟨b + 4, 30⟩ : IPv4Net), v1) ∈ M)
    (hm2 : ((⟨b + 8, 30⟩ : IPv4Net), v2) ∈ M)
    (hm3 : ((⟨b + 12, 30⟩ : IPv4Net), v3) ∈ M)
    (hother : ∀ e ∈ M, e.1 ∉ fourNets b → ¬ subsetNet e.1 ⟨b - b % 32, 27⟩)
    (hal : ∀ e ∈ M, alignedNet e.1 ∧ e.1.plen ≤ 32)
    (hnd : (M.map (fun e => e.1)).Nodup) :
    ((⟨b, 28⟩ : IPv4Net), v3) ∈ dict_of_pairs (agg_fold L) ∧
    (∀ e ∈ dict_of_pairs (agg_fold L),
      e.1 ∉ fourNets b ∧ e.1 ≠ ⟨b, 29⟩ ∧ e.1 ≠ ⟨b + 8, 29⟩) := by
  have hLsub : ∀ e ∈ L, e ∈ M := fun e he => hperm.mem_iff.1 he
  have hMsub : ∀ e ∈ M, e ∈ L := fun e he => hperm.mem_iff.2 he
  have hndL : (L.map (fun e => e.1)).Nodup := ((hperm.map (fun e => e.1)).nodup_iff).2 hnd
  have hneL : L.Pairwise (fun x y => x.1 ≠ y.1) := List.pairwise_map.1 hndL
  have hstrict : L.Pairwise (fun x y => netKeyLt x.1 y.1) := by
    have hand := List.Pairwise.and hsorted hneL
    exact hand.imp (fun h => netKeyLt_of_le_ne h.1 h.2)
  have hnodupL : L.Nodup := by
    refine hstrict.imp ?_
    intro x y h heq
    rw [heq] at h
    exact netKeyLt_irrefl _ h
  have hs0 : ((⟨b, 30⟩ : IPv4Net), v0) ∈ L := hMsub _ hm0
  have hs1 : ((⟨b + 4, 30⟩ : IPv4Net), v1) ∈ L := hMsub _ hm1
  have hs2 : ((⟨b + 8, 30⟩ : IPv4Net), v2) ∈ L := hMsub _ hm2
  have hs3 : ((⟨b + 12, 30⟩ : IPv4Net), v3) ∈ L := hMsub _ hm3
  have hk01 : netKeyLt (⟨b, 30⟩ : IPv4Net) ⟨b + 4, 30⟩ := Or.inl (show b < b + 4 by omega)
  have hk12 : netKeyLt (⟨b + 4, 30⟩ : IPv4Net) ⟨b + 8, 30⟩ :=
    Or.inl (show b + 4 < b + 8 by omega)
  have hk23 : netKeyLt (⟨b + 8, 30⟩ : IPv4Net) ⟨b + 12, 30⟩ :=
    Or.inl (show b + 8 < b + 12 by omega)
  have hnb0 : ∀ z ∈ L, ¬ (netKeyLt (⟨b, 30⟩ : IPv4Net) z.1 ∧
      netKeyLt z.1 ⟨b + 4, 30⟩) := by
    intro z hz hc
    have h1 : netKeyLt ⟨b + 4 * 0, 30⟩ z.1 := by
      have he : b + 4 * 0 = b := by omega
      rw [he]
      exact hc.1
    have h2 : netKeyLt z.1 ⟨b + 4 * (0 + 1), 30⟩ := by
      have he : b + 4 * (0 + 1) = b + 4 := by omega
      rw [he]
      exact hc.2
    exact no_strict_between b hb M hother hal 0 (by omega) z (hLsub z hz) h1 h2
  have hnb1 : ∀ z ∈ L, ¬ (netKeyLt (⟨b + 4, 30⟩ : IPv4Net) z.1 ∧
      netKeyLt z.1 ⟨b + 8, 30⟩) := by
    intro z hz hc
    have h1 : netKeyLt ⟨b + 4 * 1, 30⟩ z.1 := by
      have he : b + 4 * 1 = b + 4 := by omega
      rw [he]
      exact hc.1
    have h2 : netKeyLt z.1 ⟨b + 4 * (1 + 1), 30⟩ := by
      have he : b + 4 * (1 + 1) = b + 8 := by omega
      rw [he]
      exact hc.2
    exact no_strict_between b hb M hother hal 1 (by omega) z (hLsub z hz) h1 h2
  have hnb2 : ∀ z ∈ L, ¬ (netKeyLt (⟨b + 8, 30⟩ : IPv4Net) z.1 ∧
      netKeyLt z.1 ⟨b + 12, 30⟩) := by
    intro z hz hc
    have h1 : netKeyLt ⟨b + 4 * 2, 30⟩ z.1 := by
      have he : b + 4 * 2 = b + 8 := by omega
      rw [he]
      exact hc.1
    have h2 : netKeyLt z.1 ⟨b + 4 * (2 + 1), 30⟩ := by
      have he : b + 4 * (2 + 1) = b + 12 := by omega
      rw [he]
      exact hc.2
    exact no_strict_between b hb M hother hal 2 (by omega) z (hLsub z hz) h1 h2
  obtain ⟨A0, B0, hd01⟩ := adjacent_in_sorted L hstrict
    ((⟨b, 30⟩ : IPv4Net), v0) ((⟨b + 4, 30⟩ : IPv4Net), v1) hs0 hs1 hk01 hnb0
  obtain ⟨A1, B1, hd12⟩ := adjacent_in_sorted L hstrict
    ((⟨b + 4, 30⟩ : IPv4Net), v1) ((⟨b + 8, 30⟩ : IPv4Net), v2) hs1 hs2 hk12 hnb1
  obtain ⟨A2, B2, hd23⟩ := adjacent_in_sorted L hstrict
    ((⟨b + 8, 30⟩ : IPv4Net), v2) ((⟨b + 12, 30⟩ : IPv4Net), v3) hs2 hs3 hk23 hnb2
  obtain ⟨hy0A, hy0x, hx0A⟩ := nodup_decomp_facts L A0 B0 _ _ hd01 hnodupL
  obtain ⟨hy1A, hy1x, hx1A⟩ := nodup_decomp_facts L A1 B1 _ _ hd12 hnodupL
  obtain ⟨hy2A, hy2x, hx2A⟩ := nodup_decomp_facts L A2 B2 _ _ hd23 hnodupL
  have hsplit1 := unique_split ((⟨b + 4, 30⟩ : IPv4Net), v1)
    (A0 ++ [((⟨b, 30⟩ : IPv4Net), v0)]) B0 A1 (((⟨b + 8, 30⟩ : IPv4Net), v2) :: B1)
    (by rw [List.append_assoc, List.singleton_append, ← hd01]; exact hd12)
    (by intro hmem
        rcases List.mem_append.1 hmem with h | h
        · exact hy0A h
        · rw [List.mem_singleton] at h
          exact hy0x h)
    hx1A
  have hL1 : L = A0 ++ ((⟨b, 30⟩ : IPv4Net), v0) :: ((⟨b + 4, 30⟩ : IPv4Net), v1) ::
      ((⟨b + 8, 30⟩ : IPv4Net), v2) :: B1 := by
    rw [hd01, hsplit1.2]
  have he2nA1 : ((⟨b + 8, 30⟩ : IPv4Net), v2) ∉ A0 ++ [((⟨b, 30⟩ : IPv4Net), v0)] := by
    rw [hsplit1.1]
    exact hy1A
  have hsplit2 := unique_split ((⟨b + 8, 30⟩ : IPv4Net), v2)
    (A0 ++ [((⟨b, 30⟩ : IPv4Net), v0), ((⟨b + 4, 30⟩ : IPv4Net), v1)]) B1
    A2 (((⟨b + 12, 30⟩ : IPv4Net), v3) :: B2)
    (by rw [List.append_assoc, List.cons_append, List.singleton_append, ← hL1]; exact hd23)
    (by intro hmem
        rcases List.mem_append.1 hmem with h | h
        · exact he2nA1 (List.mem_append_left _ h)
        · rcases List.mem_cons.1 h with h | h
          · refine he2nA1 ?_
            rw [h]
            exact List.mem_append_right _ (List.mem_singleton_self _)
          · rw [List.mem_singleton] at h
            exact hy1x h)
    hx2A
  have hLfull : L = A0 ++ ((⟨b, 30⟩ : IPv4Net), v0) :: ((⟨b + 4, 30⟩ : IPv4Net), v1) ::
      ((⟨b + 8, 30⟩ : IPv4Net), v2) :: ((⟨b + 12, 30⟩ : IPv4Net), v3) :: B2 := by
    rw [hL1, hsplit2.2]
  have hkeys : L.map (fun e => e.1) = (A0.map (fun e => e.1)) ++ (⟨b, 30⟩ : IPv4Net) ::
      (⟨b + 4, 30⟩ : IPv4Net) :: (⟨b + 8, 30⟩ : IPv4Net) :: (⟨b + 12, 30⟩ : IPv4Net) ::
      (B2.map (fun e => e.1)) := by
    rw [hLfull]
    simp
  have hkf := keys_facts (A0.map (fun e => e.1)) (⟨b, 30⟩ : IPv4Net)
    (⟨b + 4, 30⟩ : IPv4Net) (⟨b + 8, 30⟩ : IPv4Net) (⟨b + 12, 30⟩ : IPv4Net)
    (B2.map (fun e => e.1)) (by rw [← hkeys]; exact hndL)
  have hAfacts : ∀ a ∈ A0, alignedNet a.1 ∧ a.1.plen ≤ 32 ∧
      ¬ subsetNet a.1 ⟨b - b % 32, 27⟩ := by
    intro a ha
    have haM : a ∈ M := hLsub a (by rw [hLfull]; exact List.mem_append_left _ ha)
    have h4 := hkf.1 a.1 (List.mem_map_of_mem _ ha)
    have hnot : a.1 ∉ fourNets b := by
      intro hmem
      have hcases : a.1 = ⟨b, 30⟩ ∨ a.1 = ⟨b + 4, 30⟩ ∨ a.1 = ⟨b + 8, 30⟩ ∨
          a.1 = ⟨b + 12, 30⟩ := by simpa [fourNets] using hmem
      rcases hcases with h | h | h | h
      · exact h4.1 h
      · exact h4.2.1 h
      · exact h4.2.2.1 h
      · exact h4.2.2.2 h
    exact ⟨(hal a haM).1, (hal a haM).2, hother a haM hnot⟩
  have hBfacts : ∀ a ∈ B2, alignedNet a.1 ∧ a.1.plen ≤ 32 ∧
      ¬ subsetNet a.1 ⟨b - b % 32, 27⟩ := by
    intro a ha
    have haM : a ∈ M := hLsub a (by
      rw [hLfull]
      exact List.mem_append_right _ (List.mem_cons_of_mem _ (List.mem_cons_of_mem _
        (List.mem_cons_of_mem _ (List.mem_cons_of_mem _ ha)))))
    have h4 := hkf.2 a.1 (List.mem_map_of_mem _ ha)
    have hnot : a.1 ∉ fourNets b := by
      intro hmem
      have hcases : a.1 = ⟨b, 30⟩ ∨ a.1 = ⟨b + 4, 30⟩ ∨ a.1 = ⟨b + 8, 30⟩ ∨
          a.1 = ⟨b + 12, 30⟩ := by simpa [fourNets] using hmem
      rcases hcases with h | h | h | h
      · exact h4.1 h
      · exact h4.2.1 h
      · exact h4.2.2.1 h
      · exact h4.2.2.2 h
    exact ⟨(hal a haM).1, (hal a haM).2, hother a haM hnot⟩
  have hdecf : L = A0 ++ ([((⟨b, 30⟩ : IPv4Net), v0), ((⟨b + 4, 30⟩ : IPv4Net), v1),
      ((⟨b + 8, 30⟩ : IPv4Net), v2), ((⟨b + 12, 30⟩ : IPv4Net), v3)] ++ B2) := hLfull
  have hSA := agg_phase_orig A0 (fun a ha => ⟨(hAfacts a ha).1, (hAfacts a ha).2.1⟩)
  have hPA : ∀ a ∈ A0, ¬ subsetNet a.1 ⟨b - b % 32, 27⟩ := fun a ha => (hAfacts a ha).2.2
  have hF := f_phase b g hb v0 v1 v2 v3 hg0 hg1 hg2 hg3 A0 hPA (A0.foldl agg_step []) hSA
  have hQblock : ∀ x, stackOrig B2 x →
      ¬ (supernet x.1 = supernet (((⟨b, 28⟩ : IPv4Net), v3)).1 ∧
        x.2.2.1 = (((⟨b, 28⟩ : IPv4Net), v3)).2.2.1) := by
    intro x hx hc
    have hc1 : supernet x.1 = supernet (⟨b, 28⟩ : IPv4Net) := hc.1
    rw [sup_b28 b] at hc1
    exact stack_block B2 ⟨b - b % 32, 27⟩ (fun a ha => (hBfacts a ha).2.2) x hx
      ⟨b - b % 32, 27⟩ (subsetNet_refl _) hc1
  obtain ⟨S1x, hBfold, hS1x⟩ := agg_phase_above ((⟨b, 28⟩ : IPv4Net), v3)
    (A0.foldl agg_step []) (stackOrig B2) hQblock (stackOrig_merge B2) B2
    (fun e he => ⟨(hBfacts e he).1, (hBfacts e he).2.1, e, he, subsetNet_refl _⟩)
    [] (by simp)
  have hfold : L.foldl agg_step []
      = S1x ++ ((⟨b, 28⟩ : IPv4Net), v3) :: A0.foldl agg_step [] := by
    rw [hdecf, List.foldl_append, List.foldl_append, hF]
    exact hBfold
  have hmemout : ∀ x ∈ agg_fold L, x = ((⟨b, 28⟩ : IPv4Net), v3) ∨
      (stackOrig A0 x ∨ stackOrig B2 x) := by
    intro x hx
    unfold agg_fold at hx
    rw [List.mem_reverse, hfold] at hx
    rcases List.mem_append.1 hx with h | h
    · exact Or.inr (Or.inr (hS1x x h))
    · rcases List.mem_cons.1 h with h | h
      · exact Or.inl h
      · exact Or.inr (Or.inl (hSA x h))
  have hCmem : ((⟨b, 28⟩ : IPv4Net), v3) ∈ agg_fold L := by
    unfold agg_fold
    rw [List.mem_reverse, hfold]
    exact List.mem_append_right _ (List.mem_cons_self _ _)
  have hresidue : ∀ x, (stackOrig A0 x ∨ stackOrig B2 x) →
      ¬ subsetNet x.1 ⟨b - b % 32, 27⟩ := by
    intro x hx hsub
    rcases hx with ⟨hax, hpx, a, ha, hsuba⟩ | ⟨hax, hpx, a, ha, hsuba⟩
    · exact (hAfacts a ha).2.2 (subsetNet_trans hsuba hsub)
    · exact (hBfacts a ha).2.2 (subsetNet_trans hsuba hsub)
  have hin30a : subsetNet ⟨b, 30⟩ ⟨b - b % 32, 27⟩ :=
    sub_net27 b hb _ ⟨Nat.le_refl b, by show b + 4 ≤ b + 16; omega⟩
  have hin30b : subsetNet ⟨b + 4, 30⟩ ⟨b - b % 32, 27⟩ :=
    sub_net27 b hb _ ⟨by show b ≤ b + 4; omega, by show b + 4 + 4 ≤ b + 16; omega⟩
  have hin30c : subsetNet ⟨b + 8, 30⟩ ⟨b - b % 32, 27⟩ :=
    sub_net27 b hb _ ⟨by show b ≤ b + 8; omega, by show b + 8 + 4 ≤ b + 16; omega⟩
  have hin30d : subsetNet ⟨b + 12, 30⟩ ⟨b - b % 32, 27⟩ :=
    sub_net27 b hb _ ⟨by show b ≤ b + 12; omega, by show b + 12 + 4 ≤ b + 16; omega⟩
  have hunique : ∀ x ∈ agg_fold L, x.1 = ⟨b, 28⟩ → x = ((⟨b, 28⟩ : IPv4Net), v3) := by
    intro x hx hk
    rcases hmemout x hx with h | h
    · exact h
    · exfalso
      apply hresidue x h
      rw [hk]
      exact net28_in27 b hb
  have hnokeys : ∀ x ∈ agg_fold L, x.1 ∉ fourNets b ∧ x.1 ≠ ⟨b, 29⟩ ∧
      x.1 ≠ ⟨b + 8, 29⟩ := by
    intro x hx
    rcases hmemout x hx with h | h
    · rw [h]
      refine ⟨?_, ?_, ?_⟩
      · intro hmem
        have hcases : (⟨b, 28⟩ : IPv4Net) = ⟨b, 30⟩ ∨ (⟨b, 28⟩ : IPv4Net) = ⟨b + 4, 30⟩ ∨
            (⟨b, 28⟩ : IPv4Net) = ⟨b + 8, 30⟩ ∨ (⟨b, 28⟩ : IPv4Net) = ⟨b + 12, 30⟩ := by
          simpa [fourNets] using hmem
        rcases hcases with h' | h' | h' | h' <;>
          · have hp : (28 : Nat) = 30 := congrArg IPv4Net.plen h'
            omega
      · intro h'
        have hp : (28 : Nat) = 29 := congrArg IPv4Net.plen h'
        omega
      · intro h'
        have hp : (28 : Nat) = 29 := congrArg IPv4Net.plen h'
        omega
    · have hnot := hresidue x h
      refine ⟨?_, ?_, ?_⟩
      · intro hmem
        have hcases : x.1 = ⟨b, 30⟩ ∨ x.1 = ⟨b + 4, 30⟩ ∨ x.1 = ⟨b + 8, 30⟩ ∨
            x.1 = ⟨b + 12, 30⟩ := by simpa [fourNets] using hmem
        rcases hcases with h' | h' | h' | h' <;> rw [h'] at hnot
        · exact hnot hin30a
        · exact hnot hin30b
        · exact hnot hin30c
        · exact hnot hin30d
      · intro h'
        rw [h'] at hnot
        exact hnot (net29a_in27 b hb)
      · intro h'
        rw [h'] at hnot
        exact hnot (net29b_in27 b hb)
  refine ⟨?_, ?_⟩
  · unfold dict_of_pairs
    refine dict_of_pairs_mem_unique ⟨b, 28⟩ v3 (agg_fold L) [] ?_ (Or.inr hCmem)
    intro e he hk
    exact congrArg Prod.snd (hunique e he hk)
  · intro e he
    exact hnokeys e (dict_of_pairs_subset _ e he)

/-- The per-entry list `Node.get_simplified_routes` builds before sorting:
each resolved destination paired with its channel's network. -/
def routesNetList (t : Topo) (n : Nat) : List (IPv4Net × Nat × Nat × Nat) :=
  (get_routes t n).map (fun e => ((chanD t e.1).network, e.2))

theorem get_simplified_routes_eq (t : Topo) (n : Nat) :
    get_simplified_routes t n
      = dict_of_pairs (agg_fold (List.insertionSort sortKeyLe (routesNetList t n))) := rfl

/-- C3: (amended) when a node's resolved table contains exactly the four /30
subnets tiling an aligned /28 block `b/28`, all with the same gateway, and
every other table entry's network is aligned and lies outside the enclosing
/27 block (and table networks are pairwise distinct), then
`get_simplified_routes` yields a single entry for the /28 carrying that
gateway, and no entry keyed by any of the four /30s or the two intermediate
/29s remains.  (Without the proviso that other entries stay outside the /27
the claim is false: a sibling /28 with the same gateway makes the cascade
continue to the /27, see the counterexample.) -/
theorem aggregation_amended (t : Topo) (n : Nat) (b g : Nat)
    (hb : b % 16 = 0)
    (v0 v1 v2 v3 : Nat × Nat × Nat)
    (hg0 : v0.2.1 = g) (hg1 : v1.2.1 = g) (hg2 : v2.2.1 = g) (hg3 : v3.2.1 = g)
    (hm0 : ((⟨b, 30⟩ : IPv4Net), v0) ∈ routesNetList t n)
    (hm1 : ((⟨b + 4, 30⟩ : IPv4Net), v1) ∈ routesNetList t n)
    (hm2 : ((⟨b + 8, 30⟩ : IPv4Net), v2) ∈ routesNetList t n)
    (hm3 : ((⟨b + 12, 30⟩ : IPv4Net), v3) ∈ routesNetList t n)
    (hother : ∀ e ∈ routesNetList t n, e.1 ∉ fourNets b →
      ¬ subsetNet e.1 ⟨b - b % 32, 27⟩)
    (hal : ∀ e ∈ routesNetList t n, alignedNet e.1 ∧ e.1.plen ≤ 32)
    (hnd : ((routesNetList t n).map (fun e => e.1)).Nodup) :
    ((get_simplified_routes t n).map (fun e => e.1)).Nodup ∧
    ((⟨b, 28⟩ : IPv4Net), v3) ∈ get_simplified_routes t n ∧
    v3.2.1 = g ∧
    (∀ e ∈ get_simplified_routes t n,
      e.1 ∉ fourNets b ∧ e.1 ≠ ⟨b, 29⟩ ∧ e.1 ≠ ⟨b + 8, 29⟩) := by
  have hmain := agg_sorted_facts b g hb v0 v1 v2 v3 hg0 hg1 hg2 hg3
    (routesNetList t n) (List.insertionSort sortKeyLe (routesNetList t n))
    (List.perm_insertionSort sortKeyLe (routesNetList t n))
    (List.sorted_insertionSort sortKeyLe (routesNetList t n))
    hm0 hm1 hm2 hm3 hother hal hnd
  rw [get_simplified_routes_eq]
  exact ⟨dict_of_pairs_keys_nodup _, hmain.1, hg3, hmain.2⟩

/-- Witness: in the hub topology, node 0's table holds the four /30 tiles of
10.0.0.0/28 behind gateway interface 1, and the simplified table indeed
contains the merged /28 entry. -/
theorem aggregation_amended_witness :
    (167772160 : Nat) % 16 = 0 ∧
    ((⟨167772160, 28⟩ : IPv4Net), ((0 : Nat), (1 : Nat), (1 : Nat)))
      ∈ get_simplified_routes hubDist 0 :=
  ⟨by decide,
    (aggregation_amended hubDist 0 167772160 1 (by decide)
      (0, 1, 1) (0, 1, 1) (0, 1, 1) (0, 1, 1) rfl rfl rfl rfl
      (by decide) (by decide) (by decide) (by decide)
      (by decide) (by decide) (by decide)).2.1⟩
